import Mathlib

/-!
# Playback engine of the streaming client (`frontend/src/context/PlayerContext.jsx`)

A shallow embedding of the `PlayerProvider` component: its React state, the
`<audio>` element it drives, its timers and in-flight history requests, and
every handler and effect of the component as a function on that state.

Conventions of the embedding

* A handler runs against the state of the latest render; the state updates it
  queues are applied together, after which the effects whose dependency arrays
  changed are run (`commit`).  An operation is "handler, then commit".
* Asynchronous pieces (`await axios.get`, `setTimeout`) are split at the
  suspension point: what runs before it belongs to the operation, what runs
  after it is an event of its own (`resumeResponse`, `resumeSeekFire`,
  `saveTimerFire`).
* Seconds and volumes are rationals; identifiers are JavaScript values
  (undefined, null, integers, strings), compared with `===`.
* A `Track` value stands for one JavaScript object: dependency arrays compare
  `currentTrack` by reference, the embedding by value.
-/

namespace PlayerContext

/-! ## JavaScript values used as identifiers -/

/-- The JavaScript values a record field such as `id` can hold here. -/
inductive JSVal where
  | undefined
  | null
  | num (n : Int)
  | str (s : String)
  deriving DecidableEq, Repr, Inhabited

/-- JavaScript truthiness: `undefined`, `null`, `0` and `""` are falsy. -/
def JSVal.truthy : JSVal → Bool
  | .undefined => false
  | .null => false
  | .num n => n != 0
  | .str s => s != ""

/-- The JavaScript operator `a || b`. -/
def JSVal.or (a b : JSVal) : JSVal :=
  if a.truthy then a else b

/-! ## Data model -/

/-- A track record as the engine reads it: the two identity fields of the two
backends, the `host` field that marks a podcast, and the two spellings of the
audio url. -/
structure Track where
  id : JSVal := .undefined
  _id : JSVal := .undefined
  host : JSVal := .undefined
  audio_url : JSVal := .undefined
  audioUrl : JSVal := .undefined
  deriving DecidableEq, Repr, Inhabited

/-- The expression `t.id || t._id` (lines 42, 128, 129). -/
def Track.trackId (t : Track) : JSVal :=
  t.id.or t._id

/-- The eight `useState` cells of `PlayerProvider` (lines 22-29). -/
structure PlayerState where
  currentTrack : Option Track := none
  isPlaying : Bool := false
  currentTime : ℚ := 0
  duration : ℚ := 0
  volume : ℚ := 1
  queue : List Track := []
  currentIndex : Int := 0
  resumePosition : ℚ := 0
  deriving DecidableEq

/-- The part of the `<audio>` element the engine reads or writes. -/
structure Audio where
  currentTime : ℚ := 0
  duration : ℚ := 0
  volume : ℚ := 1
  deriving DecidableEq

/-- A command sent to the media sink. -/
inductive SinkCmd where
  | play
  | pause
  | seek (t : ℚ)
  | setVolume (v : ℚ)
  deriving DecidableEq

/-- A request sent to the history collaborator: the body of
`POST /api/history` (lines 45-55) or `GET /api/history/resume/:trackId`
(line 136). -/
inductive HistoryReq where
  | save (trackId podcastId : JSVal) (position : ℚ)
  | resume (trackId : JSVal)
  deriving DecidableEq

/-- What the resume lookup of `playTrack` comes back with: a rejected request,
or `response.data` with its `success` and `position` fields. -/
inductive LookupResult where
  | error
  | ok (success : Bool) (position : ℚ)
  deriving DecidableEq

/-- The whole engine: React state, the refs, what the registered listeners
captured, pending timers and requests, and the logs of what was sent out.

* `audio` is `audioRef.current`.
* `listenerQueue` is the `queue` array captured by the `ended` listener that is
  currently registered.  The listener effect (lines 63-104) re-registers only
  when `currentIndex`, `queue.length`, `savePlaybackPosition` or `currentTrack`
  changes, so those are always current in a listener; the contents of `queue`
  are not.
* `pendingSave` is the live debounce timer of `savePositionTimeoutRef`: the
  time it will save and the `currentTrack` its `savePlaybackPosition` closed
  over.
* `pendingLookups` are the resume lookups in flight (their track ids),
  `pendingSeeks` the 500 ms resume-seek timers (their positions).
* `token` is `localStorage.getItem("token")`. -/
structure Engine where
  st : PlayerState := {}
  audio : Option Audio := none
  listenerQueue : List Track := []
  pendingSave : Option (ℚ × Option Track) := none
  pendingLookups : List JSVal := []
  pendingSeeks : List ℚ := []
  token : Option String := none
  cmds : List SinkCmd := []
  requests : List HistoryReq := []
  deriving DecidableEq

/-! ## Array helpers -/

/-- JavaScript `Array.prototype.findIndex`, counting from `i`: the index of the first
element satisfying `p`, or `-1`. -/
def findIndexFrom (p : Track → Bool) : List Track → Int → Int
  | [], _ => -1
  | x :: xs, i => if p x then i else findIndexFrom p xs (i + 1)

/-- The call `tracks.findIndex(p)`. -/
def findIndex (p : Track → Bool) (xs : List Track) : Int :=
  findIndexFrom p xs 0

/-- The array read `xs[i]`: `undefined` (here `none`) outside the array. -/
def getIdx (xs : List Track) (i : Int) : Option Track :=
  if i < 0 then none else xs[i.toNat]?

/-- Truthiness of the stored token (`if (token)` / `if (!token)`). -/
def tokenTruthy (token : Option String) : Bool :=
  match token with
  | none => false
  | some s => s != ""

/-! ## Effects -/

/-- The three effects of the component, run after the state went from `prev`
to `e.st`.

1. Listener effect (lines 63-104, dependencies `currentIndex`, `queue.length`,
   `savePlaybackPosition`, `currentTrack`; `savePlaybackPosition` changes
   exactly when `currentTrack` does): its cleanup clears the debounce timer, its
   body registers listeners that close over the new render.
2. Play/pause effect (lines 106-115, dependencies `isPlaying`, `currentTrack`).
3. Volume effect (lines 117-122, dependency `volume`).

Each of them does nothing without an audio element. -/
def commit (prev : PlayerState) (e : Engine) : Engine :=
  match e.audio with
  | none => e
  | some a =>
    let listenerChanged : Bool :=
      decide (prev.currentIndex ≠ e.st.currentIndex) ||
      decide (prev.queue.length ≠ e.st.queue.length) ||
      decide (prev.currentTrack ≠ e.st.currentTrack)
    let playChanged : Bool :=
      decide (prev.isPlaying ≠ e.st.isPlaying) ||
      decide (prev.currentTrack ≠ e.st.currentTrack)
    let volumeChanged : Bool := decide (prev.volume ≠ e.st.volume)
    { e with
      listenerQueue := if listenerChanged then e.st.queue else e.listenerQueue
      pendingSave := if listenerChanged then none else e.pendingSave
      audio := some (if volumeChanged then { a with volume := e.st.volume } else a)
      cmds := e.cmds
        ++ (if playChanged then
              [if e.st.isPlaying then SinkCmd.play else SinkCmd.pause]
            else [])
        ++ (if volumeChanged then [SinkCmd.setVolume e.st.volume] else []) }

/-- The engine right after the provider has mounted: initial state, the audio
element attached, and the first run of the effects done (`audio.pause()`,
`audio.volume = 1`). -/
def init (token : Option String) : Engine :=
  { st := {}
    audio := some {}
    token := token
    cmds := [SinkCmd.pause, SinkCmd.setVolume 1] }

/-! ## History requests -/

/-- Body of `savePlaybackPosition(position)` (lines 34-61) for the
`currentTrack` the callback closed over. -/
def savePlaybackPosition (captured : Option Track) (position : ℚ) (e : Engine) : Engine :=
  match captured with
  | none => e
  | some t =>
    if tokenTruthy e.token then
      let trackId := t.trackId
      let isPodcast : Bool := t.host != JSVal.undefined
      { e with requests := e.requests ++
          [HistoryReq.save (if isPodcast then JSVal.null else trackId)
            (if isPodcast then trackId else JSVal.null) position] }
    else e

/-! ## Operations -/

/-- Lines 125-134 and, without a token, line 154: what `playTrack` does before
it suspends on the resume lookup (or returns, when there is no token). -/
def playTrackHandler (track : Track) (tracks : List Track) (e : Engine) : Engine :=
  let trackId := track.trackId
  let st1 : PlayerState :=
    { e.st with
      currentTrack := some track
      queue := if tracks.length > 0 then tracks else [track]
      currentIndex :=
        if tracks.length > 0 then findIndex (fun t => t.trackId == trackId) tracks else 0 }
  if tokenTruthy e.token then
    { e with
      st := st1
      requests := e.requests ++ [HistoryReq.resume trackId]
      pendingLookups := e.pendingLookups ++ [trackId] }
  else
    { e with st := { st1 with isPlaying := true } }

/-- The call `playTrack(track, tracks)` up to its first suspension, committed. -/
def playTrack (track : Track) (tracks : List Track) (e : Engine) : Engine :=
  commit e.st (playTrackHandler track tracks e)

/-- Lines 139-154: the rest of `playTrack` once the `k`-th pending lookup has
come back with `r`. -/
def resumeResponseHandler (k : Nat) (r : LookupResult) (e : Engine) : Engine :=
  if k < e.pendingLookups.length then
    let e1 := { e with pendingLookups := e.pendingLookups.eraseIdx k }
    let e2 :=
      match r with
      | .ok true position =>
        if position > 0 then
          { e1 with
            st := { e1.st with resumePosition := position }
            pendingSeeks := e1.pendingSeeks ++ [position] }
        else e1
      | _ => e1
    { e2 with st := { e2.st with isPlaying := true } }
  else e

/-- The continuation of `playTrack` after the lookup, committed. -/
def resumeResponse (k : Nat) (r : LookupResult) (e : Engine) : Engine :=
  commit e.st (resumeResponseHandler k r e)

/-- Lines 142-147: the 500 ms timer of the resume seek fires. -/
def resumeSeekFireHandler (k : Nat) (e : Engine) : Engine :=
  match e.pendingSeeks[k]? with
  | none => e
  | some p =>
    let e1 := { e with pendingSeeks := e.pendingSeeks.eraseIdx k }
    match e1.audio with
    | none => e1
    | some a =>
      { e1 with
        audio := some { a with currentTime := p }
        cmds := e1.cmds ++ [SinkCmd.seek p]
        st := { e1.st with currentTime := p } }

/-- The resume-seek timer callback, committed. -/
def resumeSeekFire (k : Nat) (e : Engine) : Engine :=
  commit e.st (resumeSeekFireHandler k e)

/-- The call `playTrack(track, tracks)` run to completion with nothing in between: the
lookup it issued (when there is a token) comes back with `r`. -/
def playTrackComplete (track : Track) (tracks : List Track) (r : LookupResult)
    (e : Engine) : Engine :=
  let e1 := playTrack track tracks e
  if tokenTruthy e.token then resumeResponse (e1.pendingLookups.length - 1) r e1 else e1

/-- Lines 157-159. -/
def togglePlayPauseHandler (e : Engine) : Engine :=
  { e with st := { e.st with isPlaying := !e.st.isPlaying } }

/-- The operation `togglePlayPause()`. -/
def togglePlayPause (e : Engine) : Engine :=
  commit e.st (togglePlayPauseHandler e)

/-- Lines 161-168, reading `queue` from `q` (the queue of the render the
closure belongs to). -/
def playNextWith (q : List Track) (s : PlayerState) : PlayerState :=
  if s.currentIndex < (q.length : Int) - 1 then
    let nextIndex := s.currentIndex + 1
    { s with currentIndex := nextIndex, currentTrack := getIdx q nextIndex, currentTime := 0 }
  else s

/-- Lines 161-168 as called from the context value. -/
def playNextHandler (e : Engine) : Engine :=
  { e with st := playNextWith e.st.queue e.st }

/-- The operation `playNext()`. -/
def playNext (e : Engine) : Engine :=
  commit e.st (playNextHandler e)

/-- Lines 170-184. -/
def playPreviousHandler (e : Engine) : Engine :=
  if e.st.currentTime > 3 then
    let e1 := { e with st := { e.st with currentTime := 0 } }
    match e1.audio with
    | none => e1
    | some a =>
      { e1 with audio := some { a with currentTime := 0 }, cmds := e1.cmds ++ [SinkCmd.seek 0] }
  else if e.st.currentIndex > 0 then
    let prevIndex := e.st.currentIndex - 1
    { e with st :=
      { e.st with
        currentIndex := prevIndex
        currentTrack := getIdx e.st.queue prevIndex
        currentTime := 0 } }
  else e

/-- The operation `playPrevious()`. -/
def playPrevious (e : Engine) : Engine :=
  commit e.st (playPreviousHandler e)

/-- Lines 186-191. -/
def seekHandler (time : ℚ) (e : Engine) : Engine :=
  match e.audio with
  | none => e
  | some a =>
    { e with
      audio := some { a with currentTime := time }
      cmds := e.cmds ++ [SinkCmd.seek time]
      st := { e.st with currentTime := time } }

/-- The operation `seek(time)`. -/
def seek (time : ℚ) (e : Engine) : Engine :=
  commit e.st (seekHandler time e)

/-- Lines 193-195. -/
def changeVolumeHandler (newVolume : ℚ) (e : Engine) : Engine :=
  { e with st := { e.st with volume := newVolume } }

/-- The operation `changeVolume(newVolume)`. -/
def changeVolume (newVolume : ℚ) (e : Engine) : Engine :=
  commit e.st (changeVolumeHandler newVolume e)

/-! ## Sink notifications -/

/-- Lines 67-78: the sink reports that its position is now `t`
(`timeupdate`).  The listener exists only when the element does. -/
def updateTime (t : ℚ) (e : Engine) : Engine :=
  match e.audio with
  | none => e
  | some a =>
    { e with
      audio := some { a with currentTime := t }
      st := { e.st with currentTime := t }
      pendingSave := some (t, e.st.currentTrack) }

/-- The time-progressed notification. -/
def timeProgressed (t : ℚ) (e : Engine) : Engine :=
  commit e.st (updateTime t e)

/-- Line 80: the sink reports its duration `d` (`loadedmetadata`). -/
def updateDuration (d : ℚ) (e : Engine) : Engine :=
  match e.audio with
  | none => e
  | some a =>
    { e with
      audio := some { a with duration := d }
      st := { e.st with duration := d } }

/-- The metadata-loaded notification. -/
def metadataLoaded (d : ℚ) (e : Engine) : Engine :=
  commit e.st (updateDuration d e)

/-- Lines 82-90.  `currentIndex`, `queue.length` and `currentTrack` are those
of the current render (they are dependencies of the effect); the `playNext` the
listener closed over reads the contents of `listenerQueue`. -/
def handleEnded (e : Engine) : Engine :=
  match e.audio with
  | none => e
  | some _ =>
    if e.st.currentIndex < (e.st.queue.length : Int) - 1 then
      { e with st := playNextWith e.listenerQueue e.st }
    else
      savePlaybackPosition e.st.currentTrack 0
        { e with st := { e.st with isPlaying := false, currentTime := 0 } }

/-- The ended notification. -/
def ended (e : Engine) : Engine :=
  commit e.st (handleEnded e)

/-- Lines 75-77: the debounce timer fires. -/
def saveTimerFire (e : Engine) : Engine :=
  match e.pendingSave with
  | none => e
  | some (t, captured) => savePlaybackPosition captured t { e with pendingSave := none }

/-- Line 111: the promise of `audio.play()` is rejected.  The `catch` callback
only writes to the console; no state is set. -/
def playRejected (e : Engine) : Engine :=
  e

/-- The stored token changes (log in, log out). -/
def setToken (token : Option String) (e : Engine) : Engine :=
  { e with token := token }

/-! ## Runs -/

/-- Everything that can happen to the engine. -/
inductive Event where
  | playTrack (track : Track) (tracks : List Track)
  | resumeResponse (k : Nat) (r : LookupResult)
  | resumeSeekFire (k : Nat)
  | togglePlayPause
  | playNext
  | playPrevious
  | seek (time : ℚ)
  | changeVolume (newVolume : ℚ)
  | timeProgressed (t : ℚ)
  | metadataLoaded (d : ℚ)
  | ended
  | saveTimerFire
  | setToken (token : Option String)
  | playRejected

/-- One event applied to the engine. -/
def step (e : Engine) : Event → Engine
  | .playTrack track tracks => playTrack track tracks e
  | .resumeResponse k r => resumeResponse k r e
  | .resumeSeekFire k => resumeSeekFire k e
  | .togglePlayPause => togglePlayPause e
  | .playNext => playNext e
  | .playPrevious => playPrevious e
  | .seek time => seek time e
  | .changeVolume v => changeVolume v e
  | .timeProgressed t => timeProgressed t e
  | .metadataLoaded d => metadataLoaded d e
  | .ended => ended e
  | .saveTimerFire => saveTimerFire e
  | .setToken token => setToken token e
  | .playRejected => playRejected e

/-- A sequence of events applied in order. -/
def run (e : Engine) (evs : List Event) : Engine :=
  evs.foldl step e

/-- The states the engine can be in: those a sequence of events leads to from
the mounted initial state. -/
def Reachable (e : Engine) : Prop :=
  ∃ token evs, e = run (init token) evs

/-- An event that keeps to the callers' contract: `playTrack` is given a
queue that is empty or holds an element with the track's id, and an `ended`
notification is handled by a listener whose captured queue is the current
one. -/
def Admissible (e : Engine) : Event → Prop
  | .playTrack track tracks => tracks = [] ∨ ∃ x ∈ tracks, x.trackId = track.trackId
  | .ended => e.listenerQueue = e.st.queue
  | _ => True

/-- Every event of the sequence is admissible in the state it is applied to. -/
def AdmissibleRun (e : Engine) : List Event → Prop
  | [] => True
  | ev :: evs => Admissible e ev ∧ AdmissibleRun (step e ev) evs

/-- Either nothing was ever played, or `queue[currentIndex]` exists and has the
id of `currentTrack`. -/
def Coherent (s : PlayerState) : Prop :=
  (s.currentTrack = none ∧ s.queue = [] ∧ s.currentIndex = 0) ∨
  ∃ t x, s.currentTrack = some t ∧ getIdx s.queue s.currentIndex = some x ∧
    x.trackId = t.trackId

/-- A pending debounce timer belongs to the current track: the track its
callback closed over is `currentTrack`. -/
def PendingOwned (e : Engine) : Prop :=
  ∀ (t : ℚ) (c : Option Track), e.pendingSave = some (t, c) → c = e.st.currentTrack

/-! ## The debounce timer on a clock -/

/-- The delay of the debounce timer in milliseconds (line 77). -/
def saveDelay : Nat := 5000

/-- The engine on a clock counting milliseconds: the present instant, and the instant
at which the pending debounce timer, if there is one, is due. -/
structure Clocked where
  eng : Engine
  now : Nat := 0
  saveDue : Nat := 0

/-- Time passes until the instant `τ`: a pending debounce timer that is due by
then fires (lines 75-77). -/
def elapse (τ : Nat) (c : Clocked) : Clocked :=
  if c.eng.pendingSave.isSome && decide (c.saveDue ≤ τ) then
    { c with eng := saveTimerFire c.eng, now := τ }
  else
    { c with now := τ }

/-- A `timeupdate` notification arrives at the instant `τ` and reports the
position `t`: what was due before fires first, then `updateTime` runs and its
`setTimeout(..., 5000)` makes the timer due at `τ + 5000`. -/
def timeProgressedAt (τ : Nat) (t : ℚ) (c : Clocked) : Clocked :=
  { eng := timeProgressed t (elapse τ c).eng, now := τ, saveDue := τ + saveDelay }

/-- A sequence of `timeupdate` notifications, each given as (arrival instant,
reported position). -/
def notifyAll (c : Clocked) (ns : List (Nat × ℚ)) : Clocked :=
  ns.foldl (fun c n => timeProgressedAt n.1 n.2 c) c

/-- The state of the clocked engine after a notification `n` of a burst that
started from `base`: nothing was requested since, and the debounce timer is
pending for the position reported by `n`, due 5000 ms after its arrival. -/
def Armed (base : Engine) (n : Nat × ℚ) (c : Clocked) : Prop :=
  c.eng.requests = base.requests ∧ c.eng.token = base.token ∧
  c.eng.st.currentTrack = base.st.currentTrack ∧
  c.eng.pendingSave = some (n.2, base.st.currentTrack) ∧
  c.saveDue = n.1 + saveDelay ∧ c.eng.audio.isSome = true

/-- The state `e2` reached from `e` has its index inside the queue, and its
current track is the one of `e` or the queue element at its index. -/
def KeepsBounds (e e2 : Engine) : Prop :=
  0 ≤ e2.st.currentIndex ∧ e2.st.currentIndex < (e2.st.queue.length : Int) ∧
  (e2.st.currentTrack = e.st.currentTrack ∨
    ∃ x, e2.st.currentTrack = some x ∧ getIdx e2.st.queue e2.st.currentIndex = some x)

/-! ## Callers that turn a podcast into a track -/

/-- The object literal `trackFormat` of `PodcastDetail.jsx` (lines 43-50) and
`RecentlyPlayed.jsx` (lines 44-51 and 58-65), built from a podcast or history
record, restricted to the fields the engine reads: `id` and `audio_url` are
set; `_id`, `host` and `audioUrl` are not (the host is stored as `artist`). -/
def trackFormat (content : Track) : Track :=
  { id := content.id, audio_url := content.audio_url.or content.audioUrl }

/-- The handler `handlePlay` of `PodcastDetail.jsx` (lines 40-53). -/
def PodcastDetail.handlePlay (podcast : Option Track) (e : Engine) : Engine :=
  match podcast with
  | none => e
  | some p => playTrack (trackFormat p) [] e

/-- The handler `handlePlay` of `RecentlyPlayed.jsx` (lines 41-54). -/
def RecentlyPlayed.handlePlay (content : Option Track) (e : Engine) : Engine :=
  match content with
  | none => e
  | some c => playTrack (trackFormat c) [] e

/-- The handler `handleResume` of `RecentlyPlayed.jsx` (lines 56-69). -/
def RecentlyPlayed.handleResume (content : Option Track) (lastPosition : ℚ) (e : Engine) :
    Engine :=
  match content with
  | none => e
  | some c => if lastPosition > 0 then playTrack (trackFormat c) [] e else e

/-! ## The download-url choice of `backend/services/jiosaavnService.js` -/

/-- An entry of `downloadUrls`: a quality label and a url. -/
structure DownloadUrl where
  quality : String
  url : String
  deriving DecidableEq, Repr

/-- The names every object literal inherits from `Object.prototype`: a property
read with one of them as key finds a function (or, for `__proto__`, an object)
even though the literal does not list it. -/
def objectPrototypeMembers : List String :=
  ["constructor", "toString", "toLocaleString", "valueOf", "hasOwnProperty",
    "isPrototypeOf", "propertyIsEnumerable", "__proto__", "__defineGetter__",
    "__defineSetter__", "__lookupGetter__", "__lookupSetter__"]

/-- The value of `qualityOrder[x.quality] || 0`: a number, or the inherited
function or object, which is truthy and so survives the `|| 0`. -/
inductive QualityRank where
  | num (n : Nat)
  | inherited
  deriving DecidableEq, Repr

/-- The expression `qualityOrder[x.quality] || 0` (lines 69-72) for the object
literal `{ "320kbps": 3, "160kbps": 2, "96kbps": 1 }`: the listed number for
the three labels, what `Object.prototype` supplies for an inherited name, and 0
for a label that is found nowhere. -/
def qualityOrder (quality : String) : QualityRank :=
  if quality = "320kbps" then .num 3
  else if quality = "160kbps" then .num 2
  else if quality = "96kbps" then .num 1
  else if quality ∈ objectPrototypeMembers then .inherited
  else .num 0

/-- The comparator `(a, b) => bQuality - aQuality` (lines 70-74).  When either
operand is an inherited function or object the difference is NaN, which `sort`
reads as `+0`. -/
def compareQuality (a b : DownloadUrl) : Int :=
  match qualityOrder a.quality, qualityOrder b.quality with
  | .num x, .num y => (y : Int) - (x : Int)
  | _, _ => 0

/-- The rank of an entry as a number, 0 when it is not one. -/
def rankOf (x : DownloadUrl) : Nat :=
  match qualityOrder x.quality with
  | .num n => n
  | .inherited => 0

/-- The call `downloadUrls.sort(...)` (lines 70-74).  `Array.prototype.sort` is
stable: `a` stays before `b` unless the comparator says otherwise, computed here
by insertion.  Where the comparator is not consistent (an inherited label among
numeric ones) the language leaves the order to the implementation, and this is
one of the orders it may give. -/
def sortByQuality (downloadUrls : List DownloadUrl) : List DownloadUrl :=
  downloadUrls.insertionSort (fun a b => compareQuality a b ≤ 0)

/-- The method `getBestQualityUrl(downloadUrls)` as written (lines 63-77), that
is, what its body computes in a module that loads; `none` stands for a missing
argument on the way in and for `null` on the way out. -/
def getBestQualityUrl (downloadUrls : Option (List DownloadUrl)) : Option String :=
  match downloadUrls with
  | none => none
  | some [] => none
  | some (d :: ds) =>
    match sortByQuality (d :: ds) with
    | [] => none
    | best :: _ => some best.url

/-- The names declared with `const` directly in the `try` block of
`downloadAudio` (lines 88-117), in order. -/
def downloadAudioConsts : List String :=
  ["fs", "path", "fileURLToPath", "__filename", "__dirname", "uploadsDir", "filePath",
    "response", "writer", "filePath", "response", "writer"]

/-- The names declared with `const` directly in the `try` block of
`downloadImage` (lines 141-170), in order. -/
def downloadImageConsts : List String :=
  ["fs", "path", "fileURLToPath", "__filename", "__dirname", "uploadsDir", "filePath",
    "response", "writer", "filePath", "response", "writer"]

/-- The first name of a list that occurs again later in it. -/
def firstDuplicate : List String → Option String
  | [] => none
  | x :: xs => if x ∈ xs then some x else firstDuplicate xs

/-- What parsing `jiosaavnService.js` reports: a block that declares a name
twice with `const` is a SyntaxError, raised before any code of the module
runs. -/
def moduleParseError : Option String :=
  match firstDuplicate downloadAudioConsts with
  | some name => some name
  | none => firstDuplicate downloadImageConsts

/-- The outcome of calling a method of the service through the module. -/
inductive CallResult where
  | parseError (name : String)
  | returned (url : Option String)
  deriving DecidableEq, Repr

/-- The call `jiosaavnService.getBestQualityUrl(downloadUrls)` on the module as
it is in the repository: importing the module comes first. -/
def callGetBestQualityUrl (downloadUrls : Option (List DownloadUrl)) : CallResult :=
  match moduleParseError with
  | some name => .parseError name
  | none => .returned (getBestQualityUrl downloadUrls)

/-! ## Sample tracks -/

/-- Track A of the scenarios. -/
def trackA : Track := { id := .str "A", audio_url := .str "a.mp3" }

/-- Track B of the scenarios. -/
def trackB : Track := { id := .str "B", audio_url := .str "b.mp3" }

/-- Track C of the scenarios. -/
def trackC : Track := { id := .str "C", audio_url := .str "c.mp3" }

/-- A track that is in none of the sample queues. -/
def trackT : Track := { _id := .str "T", audio_url := .str "t.mp3" }

/-- A podcast record as the podcast routes return it. -/
def podcastP : Track := { id := .str "P", host := .str "H", audio_url := .str "p.mp3" }

/-! ## Basic facts about the effects and the array helpers -/

theorem commit_st (prev : PlayerState) (e : Engine) : (commit prev e).st = e.st := by
  unfold commit
  cases e.audio <;> rfl

theorem commit_self (e : Engine) : commit e.st e = e := by
  unfold commit
  cases h : e.audio with
  | none => rfl
  | some a =>
    cases e
    simp_all

theorem commit_audio_isSome (prev : PlayerState) (e : Engine) :
    (commit prev e).audio.isSome = e.audio.isSome := by
  unfold commit
  cases h : e.audio <;> simp [h]

theorem findIndexFrom_none (p : Track → Bool) (xs : List Track) (i : Int)
    (h : ∀ x ∈ xs, p x = false) : findIndexFrom p xs i = -1 := by
  induction xs generalizing i with
  | nil => rfl
  | cons x xs ih =>
    have hx : p x = false := h x (List.mem_cons_self _ _)
    simp only [findIndexFrom, hx]
    exact ih (i + 1) (fun y hy => h y (List.mem_cons_of_mem _ hy))

theorem findIndexFrom_found (p : Track → Bool) (xs : List Track) (i : Int)
    (h : ∃ x ∈ xs, p x = true) :
    ∃ k : Nat, findIndexFrom p xs i = i + k ∧ (∃ x, xs[k]? = some x ∧ p x = true) ∧
      ∀ j : Nat, j < k → ∀ y, xs[j]? = some y → p y = false := by
  induction xs generalizing i with
  | nil => simp at h
  | cons x xs ih =>
    by_cases hx : p x = true
    · refine ⟨0, ?_, ⟨x, by simp, hx⟩, ?_⟩
      · simp [findIndexFrom, hx]
      · intro j hj; omega
    · have hx0 : p x = false := by simpa using hx
      obtain ⟨y, hy, hpy⟩ := h
      have hy2 : y ∈ xs := by
        rcases List.mem_cons.mp hy with rfl | h2
        · exact absurd hpy hx
        · exact h2
      obtain ⟨k, hk, hfound, hfirst⟩ := ih (i + 1) ⟨y, hy2, hpy⟩
      refine ⟨k + 1, ?_, ?_, ?_⟩
      · simp only [findIndexFrom, hx0]
        rw [hk]; push_cast; omega
      · simpa using hfound
      · intro j hj z hz
        cases j with
        | zero => simp at hz; rw [← hz]; exact hx0
        | succ j => exact hfirst j (by omega) z (by simpa using hz)

theorem getIdx_ofNat (xs : List Track) (k : Nat) : getIdx xs (k : Int) = xs[k]? := by
  simp [getIdx]

theorem playTrack_st (T : Track) (Q : List Track) (e : Engine) :
    (playTrack T Q e).st.currentTrack = some T ∧
    (playTrack T Q e).st.queue = (if Q.length > 0 then Q else [T]) ∧
    (playTrack T Q e).st.currentIndex =
      (if Q.length > 0 then findIndex (fun t => t.trackId == T.trackId) Q else 0) := by
  unfold playTrack
  rw [commit_st]
  unfold playTrackHandler
  by_cases ht : tokenTruthy e.token = true <;> simp [ht]

theorem resumeResponse_st (k : Nat) (r : LookupResult) (e : Engine) :
    (resumeResponse k r e).st.currentTrack = e.st.currentTrack ∧
    (resumeResponse k r e).st.queue = e.st.queue ∧
    (resumeResponse k r e).st.currentIndex = e.st.currentIndex := by
  unfold resumeResponse
  rw [commit_st]
  unfold resumeResponseHandler
  by_cases hk : k < e.pendingLookups.length
  · rcases r with _ | ⟨_ | _, position⟩
    · simp [hk]
    · simp [hk]
    · by_cases hp : position > 0 <;> simp [hk, hp]
  · simp [hk]

/-! ## playTrack -/

/-- C1: for every prior engine state, every track `T` and every queue `Q` that
is empty or contains an element whose id (`id || _id`) equals that of `T`, after
`playTrack(T, Q)` the current track is `T`, the queue is `Q` (or `[T]` when `Q`
is empty), `currentIndex` points at an element with the id of `T` and no
earlier element has that id; the three fields are the same whatever the prior
state was, and the rest of `playTrack` (after the resume lookup) leaves them
as they are. -/
theorem playTrack_replaces_queue (e : Engine) (T : Track) (Q : List Track)
    (hQ : Q = [] ∨ ∃ x ∈ Q, x.trackId = T.trackId) :
    (playTrack T Q e).st.currentTrack = some T ∧
    (playTrack T Q e).st.queue = (if Q = [] then [T] else Q) ∧
    (∃ x, getIdx (playTrack T Q e).st.queue (playTrack T Q e).st.currentIndex = some x ∧
      x.trackId = T.trackId) ∧
    (∀ (j : Int) (y : Track), 0 ≤ j → j < (playTrack T Q e).st.currentIndex →
      getIdx (playTrack T Q e).st.queue j = some y → y.trackId ≠ T.trackId) ∧
    (∀ e2 : Engine,
      (playTrack T Q e2).st.currentTrack = (playTrack T Q e).st.currentTrack ∧
      (playTrack T Q e2).st.queue = (playTrack T Q e).st.queue ∧
      (playTrack T Q e2).st.currentIndex = (playTrack T Q e).st.currentIndex) ∧
    (∀ r : LookupResult,
      (playTrackComplete T Q r e).st.currentTrack = some T ∧
      (playTrackComplete T Q r e).st.queue = (playTrack T Q e).st.queue ∧
      (playTrackComplete T Q r e).st.currentIndex = (playTrack T Q e).st.currentIndex) := by
  obtain ⟨h1, h2, h3⟩ := playTrack_st T Q e
  have hfree : ∀ e2 : Engine,
      (playTrack T Q e2).st.currentTrack = (playTrack T Q e).st.currentTrack ∧
      (playTrack T Q e2).st.queue = (playTrack T Q e).st.queue ∧
      (playTrack T Q e2).st.currentIndex = (playTrack T Q e).st.currentIndex := by
    intro e2
    obtain ⟨g1, g2, g3⟩ := playTrack_st T Q e2
    exact ⟨g1.trans h1.symm, g2.trans h2.symm, g3.trans h3.symm⟩
  have hdone : ∀ r : LookupResult,
      (playTrackComplete T Q r e).st.currentTrack = some T ∧
      (playTrackComplete T Q r e).st.queue = (playTrack T Q e).st.queue ∧
      (playTrackComplete T Q r e).st.currentIndex = (playTrack T Q e).st.currentIndex := by
    intro r
    unfold playTrackComplete
    by_cases ht : tokenTruthy e.token = true
    · simp only [ht, if_true]
      obtain ⟨g1, g2, g3⟩ :=
        resumeResponse_st ((playTrack T Q e).pendingLookups.length - 1) r (playTrack T Q e)
      exact ⟨g1.trans h1, g2, g3⟩
    · simp only [ht]
      exact ⟨h1, rfl, rfl⟩
  refine ⟨h1, ?_, ?_, ?_, hfree, hdone⟩
  · rw [h2]
    cases Q <;> simp
  · rw [h2, h3]
    rcases hQ with rfl | ⟨x, hx, hid⟩
    · exact ⟨T, by simp [getIdx], rfl⟩
    · have hlen : Q.length > 0 := List.length_pos_of_mem hx
      obtain ⟨k, hk, ⟨y, hy, hpy⟩, -⟩ :=
        findIndexFrom_found (fun t => t.trackId == T.trackId) Q 0 ⟨x, hx, by simpa using hid⟩
      refine ⟨y, ?_, by simpa using hpy⟩
      simp only [hlen, if_true, findIndex, hk, zero_add]
      rw [getIdx_ofNat]; exact hy
  · intro j y hj0 hjlt hget
    rw [h2] at hget
    rw [h3] at hjlt
    rcases hQ with rfl | ⟨x, hx, hid⟩
    · simp at hjlt; omega
    · have hlen : Q.length > 0 := List.length_pos_of_mem hx
      obtain ⟨k, hk, -, hfirst⟩ :=
        findIndexFrom_found (fun t => t.trackId == T.trackId) Q 0 ⟨x, hx, by simpa using hid⟩
      simp only [hlen, if_true, findIndex, hk, zero_add] at hjlt hget
      obtain ⟨n, rfl⟩ := Int.eq_ofNat_of_zero_le hj0
      rw [getIdx_ofNat] at hget
      have := hfirst n (by omega) y hget
      simpa using this

/-- Witness for C1: `playTrack(B, [A, B, C])` from the initial state. -/
theorem playTrack_replaces_queue_witness :
    (∃ x ∈ [trackA, trackB, trackC], x.trackId = trackB.trackId) ∧
    (playTrack trackB [trackA, trackB, trackC] (init none)).st.currentTrack = some trackB ∧
    (playTrack trackB [trackA, trackB, trackC] (init none)).st.queue =
      [trackA, trackB, trackC] ∧
    (playTrack trackB [trackA, trackB, trackC] (init none)).st.currentIndex = 1 :=
  ⟨⟨trackB, by decide, rfl⟩,
    (playTrack_replaces_queue (init none) trackB [trackA, trackB, trackC]
      (Or.inr ⟨trackB, by decide, rfl⟩)).1,
    by decide, by decide⟩

/-- C2 (the code at the failing input): `playTrack(T, [A])` with `T` not in the
queue stores the not-found value `-1` of `findIndex` in `currentIndex`, not `0`;
no element of the queue is at that index. -/
theorem playTrack_absent_track_index :
    (playTrack trackT [trackA] (init none)).st.currentIndex = -1 ∧
    (playTrack trackT [trackA] (init none)).st.currentIndex ≠ 0 ∧
    (playTrack trackT [trackA] (init none)).st.queue = [trackA] ∧
    getIdx (playTrack trackT [trackA] (init none)).st.queue
      (playTrack trackT [trackA] (init none)).st.currentIndex = none := by
  decide

/-! ## The index invariant -/

theorem getIdx_some_bounds (xs : List Track) (i : Int) (x : Track)
    (h : getIdx xs i = some x) : 0 ≤ i ∧ i < (xs.length : Int) := by
  unfold getIdx at h
  by_cases hi : i < 0
  · simp [hi] at h
  · simp only [hi, if_false] at h
    have hlt : i.toNat < xs.length := by
      by_contra hge
      rw [List.getElem?_eq_none (by omega)] at h
      exact Option.noConfusion h
    omega

theorem getIdx_of_bounds (xs : List Track) (i : Int) (h0 : 0 ≤ i)
    (h1 : i < (xs.length : Int)) : ∃ x, getIdx xs i = some x := by
  unfold getIdx
  have hi : ¬ i < 0 := by omega
  have hlt : i.toNat < xs.length := by omega
  exact ⟨xs[i.toNat], by simp [hi, List.getElem?_eq_getElem hlt]⟩

theorem Coherent_of_nav (s1 s2 : PlayerState) (h1 : s2.currentTrack = s1.currentTrack)
    (h2 : s2.queue = s1.queue) (h3 : s2.currentIndex = s1.currentIndex)
    (h : Coherent s1) : Coherent s2 := by
  unfold Coherent at *
  rw [h1, h2, h3]
  exact h

theorem playNextWith_coherent (s : PlayerState) (h : Coherent s) :
    Coherent (playNextWith s.queue s) := by
  unfold playNextWith
  by_cases hc : s.currentIndex < (s.queue.length : Int) - 1
  · simp only [hc, if_true]
    rcases h with ⟨-, hq, hi⟩ | ⟨t, x, -, hx, -⟩
    · rw [hq, hi] at hc
      simp at hc
    · obtain ⟨h0, -⟩ := getIdx_some_bounds _ _ _ hx
      obtain ⟨y, hy⟩ := getIdx_of_bounds s.queue (s.currentIndex + 1) (by omega) (by omega)
      exact Or.inr ⟨y, y, hy, hy, rfl⟩
  · simp only [hc, if_false]
    exact h

theorem playPreviousHandler_coherent (e : Engine) (h : Coherent e.st) :
    Coherent (playPreviousHandler e).st := by
  unfold playPreviousHandler
  by_cases ht : e.st.currentTime > 3
  · simp only [ht, if_true]
    cases e.audio <;> exact Coherent_of_nav e.st _ rfl rfl rfl h
  · simp only [ht, if_false]
    by_cases hc : e.st.currentIndex > 0
    · simp only [hc, if_true]
      rcases h with ⟨-, -, hi⟩ | ⟨t, x, -, hx, -⟩
      · omega
      · obtain ⟨-, h1⟩ := getIdx_some_bounds _ _ _ hx
        obtain ⟨y, hy⟩ := getIdx_of_bounds e.st.queue (e.st.currentIndex - 1) (by omega) (by omega)
        exact Or.inr ⟨y, y, hy, hy, rfl⟩
    · simp only [hc, if_false]
      exact h

theorem savePlaybackPosition_st (captured : Option Track) (position : ℚ) (e : Engine) :
    (savePlaybackPosition captured position e).st = e.st := by
  unfold savePlaybackPosition
  cases captured with
  | none => rfl
  | some t => by_cases ht : tokenTruthy e.token = true <;> simp [ht]

theorem playTrack_coherent (T : Track) (Q : List Track) (e : Engine)
    (hQ : Q = [] ∨ ∃ x ∈ Q, x.trackId = T.trackId) : Coherent (playTrack T Q e).st := by
  obtain ⟨h1, h2, h3⟩ := playTrack_st T Q e
  rcases hQ with rfl | ⟨x, hx, hid⟩
  · refine Or.inr ⟨T, T, h1, ?_, rfl⟩
    rw [h2, h3]; simp [getIdx]
  · have hlen : Q.length > 0 := List.length_pos_of_mem hx
    obtain ⟨k, hk, ⟨y, hy, hpy⟩, -⟩ :=
      findIndexFrom_found (fun t => t.trackId == T.trackId) Q 0 ⟨x, hx, by simpa using hid⟩
    refine Or.inr ⟨T, y, h1, ?_, by simpa using hpy⟩
    rw [h2, h3]
    simp only [hlen, if_true, findIndex, hk, zero_add]
    rw [getIdx_ofNat]; exact hy

theorem step_coherent (e : Engine) (ev : Event) (hadm : Admissible e ev)
    (h : Coherent e.st) : Coherent (step e ev).st := by
  cases ev with
  | playTrack track tracks => exact playTrack_coherent track tracks e hadm
  | resumeResponse k r =>
    obtain ⟨g1, g2, g3⟩ := resumeResponse_st k r e
    exact Coherent_of_nav e.st _ g1 g2 g3 h
  | resumeSeekFire k =>
    simp only [step, resumeSeekFire, commit_st]
    unfold resumeSeekFireHandler
    cases e.pendingSeeks[k]? with
    | none => exact h
    | some p => cases e.audio <;> exact Coherent_of_nav e.st _ rfl rfl rfl h
  | togglePlayPause =>
    simp only [step, togglePlayPause, commit_st]
    exact Coherent_of_nav e.st _ rfl rfl rfl h
  | playNext =>
    simp only [step, playNext, commit_st]
    exact playNextWith_coherent e.st h
  | playPrevious =>
    simp only [step, playPrevious, commit_st]
    exact playPreviousHandler_coherent e h
  | seek time =>
    simp only [step, seek, commit_st]
    unfold seekHandler
    cases e.audio <;> exact Coherent_of_nav e.st _ rfl rfl rfl h
  | changeVolume v =>
    simp only [step, changeVolume, commit_st]
    exact Coherent_of_nav e.st _ rfl rfl rfl h
  | timeProgressed t =>
    simp only [step, timeProgressed, commit_st]
    unfold updateTime
    cases e.audio <;> exact Coherent_of_nav e.st _ rfl rfl rfl h
  | metadataLoaded d =>
    simp only [step, metadataLoaded, commit_st]
    unfold updateDuration
    cases e.audio <;> exact Coherent_of_nav e.st _ rfl rfl rfl h
  | ended =>
    simp only [step, ended, commit_st]
    unfold handleEnded
    cases e.audio with
    | none => exact h
    | some a =>
      by_cases hc : e.st.currentIndex < (e.st.queue.length : Int) - 1
      · simp only [hc, if_true]
        have hl : e.listenerQueue = e.st.queue := hadm
        rw [hl]
        exact playNextWith_coherent e.st h
      · simp only [hc, if_false]
        rw [savePlaybackPosition_st]
        exact Coherent_of_nav e.st _ rfl rfl rfl h
  | saveTimerFire =>
    simp only [step, saveTimerFire]
    cases e.pendingSave with
    | none => exact h
    | some tc =>
      obtain ⟨t, c⟩ := tc
      simp only [savePlaybackPosition_st]
      exact h
  | setToken token => exact h
  | playRejected => exact h

theorem run_coherent (evs : List Event) (e : Engine) (hadm : AdmissibleRun e evs)
    (h : Coherent e.st) : Coherent (run e evs).st := by
  induction evs generalizing e with
  | nil => exact h
  | cons ev evs ih =>
    obtain ⟨h1, h2⟩ := hadm
    exact ih (step e ev) h2 (step_coherent e ev h1 h)

/-- C3 as stated fails: after `playTrack(T, [A])` from the initial state, with
`T` not in the queue, a track is set and the queue is non-empty, yet
`queue[currentIndex]` does not exist. -/
theorem index_invariant_fails :
    ¬ ∀ (token : Option String) (evs : List Event) (t : Track),
      (run (init token) evs).st.currentTrack = some t →
      (run (init token) evs).st.queue ≠ [] →
      ∃ x, getIdx (run (init token) evs).st.queue
        (run (init token) evs).st.currentIndex = some x ∧ x.trackId = t.trackId := by
  intro h
  obtain ⟨x, hx, -⟩ := h none [Event.playTrack trackT [trackA]] trackT (by decide) (by decide)
  have hnone : getIdx (run (init none) [Event.playTrack trackT [trackA]]).st.queue
      (run (init none) [Event.playTrack trackT [trackA]]).st.currentIndex = none := by
    decide
  rw [hnone] at hx
  exact Option.noConfusion hx

/-- C3, amended: in every state reached from the initial state by a sequence of
events in which every `playTrack(T, Q)` is given a queue that is empty or
contains an element with the id of `T`, and every `ended` notification is
handled by a listener registered for the current queue, if a track is set and
the queue is non-empty then `queue[currentIndex]` exists and has the id of the
current track. -/
theorem index_invariant_admissible (token : Option String) (evs : List Event)
    (hadm : AdmissibleRun (init token) evs) (t : Track)
    (ht : (run (init token) evs).st.currentTrack = some t)
    (_hq : (run (init token) evs).st.queue ≠ []) :
    ∃ x, getIdx (run (init token) evs).st.queue
      (run (init token) evs).st.currentIndex = some x ∧ x.trackId = t.trackId := by
  have h0 : Coherent (init token).st := Or.inl ⟨rfl, rfl, rfl⟩
  rcases run_coherent evs (init token) hadm h0 with ⟨hn, -, -⟩ | ⟨t2, x, ht2, hx, hid⟩
  · rw [hn] at ht
    exact Option.noConfusion ht
  · rw [ht2] at ht
    cases ht
    exact ⟨x, hx, hid⟩

/-- Witness for C3 amended: play B in `[A, B, C]`, go to the next track, let it
end at the last index, go back once. -/
theorem index_invariant_admissible_witness :
    AdmissibleRun (init none)
      [Event.playTrack trackB [trackA, trackB, trackC], Event.playNext, Event.ended,
        Event.playPrevious] ∧
    ∃ x, getIdx (run (init none)
        [Event.playTrack trackB [trackA, trackB, trackC], Event.playNext, Event.ended,
          Event.playPrevious]).st.queue
      (run (init none)
        [Event.playTrack trackB [trackA, trackB, trackC], Event.playNext, Event.ended,
          Event.playPrevious]).st.currentIndex = some x ∧ x.trackId = trackB.trackId :=
  have hadm : AdmissibleRun (init none)
      [Event.playTrack trackB [trackA, trackB, trackC], Event.playNext, Event.ended,
        Event.playPrevious] :=
    ⟨Or.inr ⟨trackB, by decide, rfl⟩, trivial,
      (by decide : (playNext (playTrack trackB [trackA, trackB, trackC] (init none))).listenerQueue
        = (playNext (playTrack trackB [trackA, trackB, trackC] (init none))).st.queue),
      trivial, trivial⟩
  ⟨hadm, index_invariant_admissible none _ hadm trackB (by decide) (by decide)⟩

/-- A stale `ended` listener: `playTrack(A, [A, B])`, then `playTrack(A, [A, C])`
with the same track object, index and queue length, does not re-register the
listeners; the `ended` handler then reads the old queue and makes B current
while `queue[1]` is C. -/
theorem ended_reads_captured_queue :
    (run (init none)
      [Event.playTrack trackA [trackA, trackB], Event.playTrack trackA [trackA, trackC],
        Event.ended]).st.currentTrack = some trackB ∧
    (run (init none)
      [Event.playTrack trackA [trackA, trackB], Event.playTrack trackA [trackA, trackC],
        Event.ended]).st.queue = [trackA, trackC] ∧
    (run (init none)
      [Event.playTrack trackA [trackA, trackB], Event.playTrack trackA [trackA, trackC],
        Event.ended]).st.currentIndex = 1 := by
  decide

/-! ## Facts used by the transport operations -/

theorem commit_of_unchanged (prev : PlayerState) (e : Engine)
    (h1 : prev.currentIndex = e.st.currentIndex)
    (h2 : prev.queue.length = e.st.queue.length)
    (h3 : prev.currentTrack = e.st.currentTrack)
    (h4 : prev.isPlaying = e.st.isPlaying)
    (h5 : prev.volume = e.st.volume) : commit prev e = e := by
  unfold commit
  cases h : e.audio with
  | none => rfl
  | some a =>
    cases e
    simp_all

theorem step_audio_isSome (e : Engine) (ev : Event) :
    (step e ev).audio.isSome = e.audio.isSome := by
  cases ev with
  | playTrack track tracks =>
    simp only [step, playTrack, commit_audio_isSome]
    unfold playTrackHandler
    by_cases ht : tokenTruthy e.token = true <;> simp [ht]
  | resumeResponse k r =>
    simp only [step, resumeResponse, commit_audio_isSome]
    unfold resumeResponseHandler
    by_cases hk : k < e.pendingLookups.length
    · rcases r with _ | ⟨_ | _, position⟩
      · simp [hk]
      · simp [hk]
      · by_cases hp : position > 0 <;> simp [hk, hp]
    · simp [hk]
  | resumeSeekFire k =>
    simp only [step, resumeSeekFire, commit_audio_isSome]
    unfold resumeSeekFireHandler
    cases e.pendingSeeks[k]? with
    | none => rfl
    | some p => cases h : e.audio <;> simp [h]
  | togglePlayPause => simp [step, togglePlayPause, commit_audio_isSome, togglePlayPauseHandler]
  | playNext => simp [step, playNext, commit_audio_isSome, playNextHandler]
  | playPrevious =>
    simp only [step, playPrevious, commit_audio_isSome]
    unfold playPreviousHandler
    by_cases ht : e.st.currentTime > 3
    · cases h : e.audio <;> simp [ht, h]
    · by_cases hc : e.st.currentIndex > 0 <;> simp [ht, hc]
  | seek time =>
    simp only [step, seek, commit_audio_isSome]
    unfold seekHandler
    cases h : e.audio <;> simp [h]
  | changeVolume v => simp [step, changeVolume, commit_audio_isSome, changeVolumeHandler]
  | timeProgressed t =>
    simp only [step, timeProgressed, commit_audio_isSome]
    unfold updateTime
    cases h : e.audio <;> simp [h]
  | metadataLoaded d =>
    simp only [step, metadataLoaded, commit_audio_isSome]
    unfold updateDuration
    cases h : e.audio <;> simp [h]
  | ended =>
    simp only [step, ended, commit_audio_isSome]
    unfold handleEnded
    cases h : e.audio with
    | none => simp [h]
    | some a =>
      by_cases hc : e.st.currentIndex < (e.st.queue.length : Int) - 1
      · simp [hc, h]
      · simp only [hc, if_false]
        unfold savePlaybackPosition
        cases e.st.currentTrack with
        | none => simp [h]
        | some t => by_cases ht : tokenTruthy e.token = true <;> simp [ht, h]
  | saveTimerFire =>
    simp only [step, saveTimerFire]
    cases e.pendingSave with
    | none => rfl
    | some tc =>
      obtain ⟨t, c⟩ := tc
      simp only [savePlaybackPosition]
      cases c with
      | none => rfl
      | some t => by_cases ht : tokenTruthy e.token = true <;> simp [ht]
  | setToken token => rfl
  | playRejected => rfl

theorem run_audio_isSome (evs : List Event) (e : Engine) :
    (run e evs).audio.isSome = e.audio.isSome := by
  induction evs generalizing e with
  | nil => rfl
  | cons ev evs ih =>
    show (run (step e ev) evs).audio.isSome = e.audio.isSome
    rw [ih, step_audio_isSome]

theorem reachable_audio (e : Engine) (h : Reachable e) : ∃ a, e.audio = some a := by
  obtain ⟨token, evs, rfl⟩ := h
  have h1 := run_audio_isSome evs (init token)
  have h2 : (init token).audio.isSome = true := rfl
  rw [h2] at h1
  exact Option.isSome_iff_exists.mp h1

/-! ## playNext -/

/-- C4: in every state whose `currentIndex` is a valid index of the queue other
than the last, `playNext()` moves `currentIndex` one up, makes the queue element
at the new index the current track, and resets `currentTime` to 0. -/
theorem playNext_advances (e : Engine) (h0 : 0 ≤ e.st.currentIndex)
    (h1 : e.st.currentIndex < (e.st.queue.length : Int) - 1) :
    (playNext e).st.currentIndex = e.st.currentIndex + 1 ∧
    (∃ x, getIdx e.st.queue (e.st.currentIndex + 1) = some x ∧
      (playNext e).st.currentTrack = some x) ∧
    (playNext e).st.currentTime = 0 ∧
    (playNext e).st.queue = e.st.queue := by
  obtain ⟨x, hx⟩ := getIdx_of_bounds e.st.queue (e.st.currentIndex + 1) (by omega) (by omega)
  unfold playNext
  rw [commit_st]
  have hs : (playNextHandler e).st =
      { e.st with
        currentIndex := e.st.currentIndex + 1
        currentTrack := getIdx e.st.queue (e.st.currentIndex + 1)
        currentTime := 0 } := by
    simp only [playNextHandler, playNextWith, h1, if_true]
  rw [hs]
  exact ⟨rfl, ⟨x, hx, hx⟩, rfl, rfl⟩

/-- Witness for C4: after `playTrack(B, [A, B, C])` the index is 1, and
`playNext()` makes C current at index 2. -/
theorem playNext_advances_witness :
    (playTrack trackB [trackA, trackB, trackC] (init none)).st.currentIndex = 1 ∧
    (playNext (playTrack trackB [trackA, trackB, trackC] (init none))).st.currentIndex = 2 ∧
    (playNext (playTrack trackB [trackA, trackB, trackC] (init none))).st.currentTrack
      = some trackC ∧
    (playNext (playTrack trackB [trackA, trackB, trackC] (init none))).st.currentTime = 0 :=
  have h := playNext_advances (playTrack trackB [trackA, trackB, trackC] (init none))
    (by decide) (by decide)
  ⟨by decide, h.1, by decide, h.2.2.1⟩

/-- C5: in every state with a non-empty queue and `currentIndex` at the last
index, `playNext()` changes nothing at all: not the index, not the track, no
other field of the state, and nothing is sent to the sink. -/
theorem playNext_at_end_noop (e : Engine) (_hq : e.st.queue ≠ [])
    (hlast : e.st.currentIndex = (e.st.queue.length : Int) - 1) :
    playNext e = e ∧
    (playNext e).st.currentIndex = e.st.currentIndex ∧
    (playNext e).st.currentTrack = e.st.currentTrack := by
  have hno : ¬ e.st.currentIndex < (e.st.queue.length : Int) - 1 := by omega
  have hh : playNextHandler e = e := by
    simp [playNextHandler, playNextWith, hno]
  have he : playNext e = e := by
    unfold playNext
    rw [hh, commit_self]
  exact ⟨he, by rw [he], by rw [he]⟩

/-- Witness for C5: the scenario of the specification, `playNext()` a second
time at C (index 2 of `[A, B, C]`). -/
theorem playNext_at_end_noop_witness :
    (playNext (playTrack trackB [trackA, trackB, trackC] (init none))).st.currentIndex = 2 ∧
    playNext (playNext (playTrack trackB [trackA, trackB, trackC] (init none))) =
      playNext (playTrack trackB [trackA, trackB, trackC] (init none)) :=
  ⟨by decide,
    (playNext_at_end_noop (playNext (playTrack trackB [trackA, trackB, trackC] (init none)))
      (by decide) (by decide)).1⟩

/-! ## playPrevious -/

/-- C6: in every state of the engine with `currentTime > 3`, `playPrevious()`
sets `currentTime` to 0, commands the sink to seek to 0 (and nothing else), and
leaves `currentIndex`, `currentTrack` and `queue` as they are, whatever
`currentIndex` is. -/
theorem playPrevious_restarts (e : Engine) (hr : Reachable e) (ht : 3 < e.st.currentTime) :
    (playPrevious e).st.currentTime = 0 ∧
    (playPrevious e).cmds = e.cmds ++ [SinkCmd.seek 0] ∧
    (∃ a, (playPrevious e).audio = some a ∧ a.currentTime = 0) ∧
    (playPrevious e).st.currentIndex = e.st.currentIndex ∧
    (playPrevious e).st.currentTrack = e.st.currentTrack ∧
    (playPrevious e).st.queue = e.st.queue := by
  obtain ⟨a, ha⟩ := reachable_audio e hr
  have ht2 : e.st.currentTime > 3 := ht
  have hh : playPreviousHandler e =
      { e with
        st := { e.st with currentTime := 0 }
        audio := some { a with currentTime := 0 }
        cmds := e.cmds ++ [SinkCmd.seek 0] } := by
    unfold playPreviousHandler
    simp only [ht2, if_true]
    simp [ha]
  have hc : playPrevious e = playPreviousHandler e := by
    unfold playPrevious
    apply commit_of_unchanged <;> rw [hh]
  rw [hc, hh]
  exact ⟨rfl, rfl, ⟨_, rfl, rfl⟩, rfl, rfl, rfl⟩

/-- Witness for C6: play B in `[A, B, C]`, seek to 45 s, press previous. -/
theorem playPrevious_restarts_witness :
    Reachable (run (init none)
      [Event.playTrack trackB [trackA, trackB, trackC], Event.seek 45]) ∧
    (playPrevious (run (init none)
      [Event.playTrack trackB [trackA, trackB, trackC], Event.seek 45])).st.currentTime = 0 ∧
    (playPrevious (run (init none)
      [Event.playTrack trackB [trackA, trackB, trackC], Event.seek 45])).st.currentIndex = 1 :=
  have hr : Reachable (run (init none)
      [Event.playTrack trackB [trackA, trackB, trackC], Event.seek 45]) := ⟨none, _, rfl⟩
  have h := playPrevious_restarts _ hr (by decide)
  ⟨hr, h.1, h.2.2.2.1.trans (by decide)⟩

/-- C7: in every state with `currentTime <= 3` and `0 < currentIndex <
queue.length`, `playPrevious()` moves `currentIndex` one down, makes the queue
element at the new index the current track, and resets `currentTime` to 0. -/
theorem playPrevious_goes_back (e : Engine) (ht : e.st.currentTime ≤ 3)
    (h0 : 0 < e.st.currentIndex) (h1 : e.st.currentIndex < (e.st.queue.length : Int)) :
    (playPrevious e).st.currentIndex = e.st.currentIndex - 1 ∧
    (∃ x, getIdx e.st.queue (e.st.currentIndex - 1) = some x ∧
      (playPrevious e).st.currentTrack = some x) ∧
    (playPrevious e).st.currentTime = 0 ∧
    (playPrevious e).st.queue = e.st.queue := by
  obtain ⟨x, hx⟩ := getIdx_of_bounds e.st.queue (e.st.currentIndex - 1) (by omega) (by omega)
  have hnt : ¬ e.st.currentTime > 3 := not_lt.mpr ht
  have hpos : e.st.currentIndex > 0 := h0
  unfold playPrevious
  rw [commit_st]
  have hs : (playPreviousHandler e).st =
      { e.st with
        currentIndex := e.st.currentIndex - 1
        currentTrack := getIdx e.st.queue (e.st.currentIndex - 1)
        currentTime := 0 } := by
    simp only [playPreviousHandler, hnt, if_false, hpos, if_true]
  rw [hs]
  exact ⟨rfl, ⟨x, hx, hx⟩, rfl, rfl⟩

/-- Witness for C7: at B (index 1 of `[A, B, C]`, time 0) previous goes to A. -/
theorem playPrevious_goes_back_witness :
    (playPrevious (playTrack trackB [trackA, trackB, trackC] (init none))).st.currentIndex = 0 ∧
    (playPrevious (playTrack trackB [trackA, trackB, trackC] (init none))).st.currentTrack
      = some trackA :=
  have h := playPrevious_goes_back (playTrack trackB [trackA, trackB, trackC] (init none))
    (by decide) (by decide) (by decide)
  ⟨h.1.trans (by decide), by decide⟩

/-- C8: in every state with `currentTime <= 3` and `currentIndex == 0`,
`playPrevious()` leaves the whole engine as it is: every field of the playback
state, and the list of commands sent to the sink. -/
theorem playPrevious_at_start_noop (e : Engine) (ht : e.st.currentTime ≤ 3)
    (hi : e.st.currentIndex = 0) :
    playPrevious e = e ∧ (playPrevious e).st = e.st ∧ (playPrevious e).cmds = e.cmds ∧
    (playPrevious e).audio = e.audio := by
  have hnt : ¬ e.st.currentTime > 3 := not_lt.mpr ht
  have hpos : ¬ e.st.currentIndex > 0 := by omega
  have hh : playPreviousHandler e = e := by
    simp [playPreviousHandler, hnt, hpos]
  have he : playPrevious e = e := by
    unfold playPrevious
    rw [hh, commit_self]
  exact ⟨he, by rw [he], by rw [he], by rw [he]⟩

/-- Witness for C8: previous right after `playTrack(A, [A, B, C])`. -/
theorem playPrevious_at_start_noop_witness :
    (playTrack trackA [trackA, trackB, trackC] (init none)).st.currentIndex = 0 ∧
    playPrevious (playTrack trackA [trackA, trackB, trackC] (init none)) =
      playTrack trackA [trackA, trackB, trackC] (init none) :=
  ⟨by decide,
    (playPrevious_at_start_noop (playTrack trackA [trackA, trackB, trackC] (init none))
      (by decide) (by decide)).1⟩

/-! ## seek and togglePlayPause -/

/-- C9: for every time `t` and every state with the audio element attached,
`seek(t)` itself (no sink notification involved) sets `currentTime` to `t` and
commands the sink to position `t`; the effects that follow add nothing. -/
theorem seek_mirrors_time (t : ℚ) (e : Engine) (a : Audio) (ha : e.audio = some a) :
    (seekHandler t e).st.currentTime = t ∧
    (seek t e).st.currentTime = t ∧
    (seek t e).cmds = e.cmds ++ [SinkCmd.seek t] ∧
    (seek t e).audio = some { a with currentTime := t } ∧
    seek t e = seekHandler t e := by
  have hh : seekHandler t e =
      { e with
        audio := some { a with currentTime := t }
        cmds := e.cmds ++ [SinkCmd.seek t]
        st := { e.st with currentTime := t } } := by
    unfold seekHandler
    simp [ha]
  have hc : seek t e = seekHandler t e := by
    unfold seek
    apply commit_of_unchanged <;> rw [hh]
  rw [hc, hh]
  exact ⟨rfl, rfl, rfl, rfl, rfl⟩

/-- Witness for C9: `seek(45)` in the initial state gives `currentTime == 45`. -/
theorem seek_mirrors_time_witness :
    (seek 45 (init none)).st.currentTime = 45 ∧
    (seek 45 (init none)).cmds = (init none).cmds ++ [SinkCmd.seek 45] :=
  have h := seek_mirrors_time 45 (init none) {} rfl
  ⟨h.2.1, h.2.2.1⟩

/-- C10: in every state of the engine with a current track, `togglePlayPause()`
sets `isPlaying` to its negation, so that two calls restore it; the handler
itself sends nothing to the sink, and the effect that runs when the new state
is applied sends exactly one command, `play` when `isPlaying` is now true and
`pause` when it is false. -/
theorem togglePlayPause_flips (e : Engine) (hr : Reachable e) (t : Track)
    (_ht : e.st.currentTrack = some t) :
    (togglePlayPause e).st.isPlaying = !e.st.isPlaying ∧
    (togglePlayPause (togglePlayPause e)).st.isPlaying = e.st.isPlaying ∧
    (togglePlayPauseHandler e).cmds = e.cmds ∧
    (togglePlayPause e).cmds =
      e.cmds ++ [if (togglePlayPause e).st.isPlaying then SinkCmd.play else SinkCmd.pause] := by
  obtain ⟨a, ha⟩ := reachable_audio e hr
  have h1 : ∀ e2 : Engine, (togglePlayPause e2).st.isPlaying = !e2.st.isPlaying := by
    intro e2
    unfold togglePlayPause
    rw [commit_st]
    rfl
  refine ⟨h1 e, ?_, rfl, ?_⟩
  · rw [h1, h1]
    simp
  · rw [h1]
    unfold togglePlayPause commit
    have ha2 : (togglePlayPauseHandler e).audio = some a := ha
    rw [ha2]
    simp [togglePlayPauseHandler]

/-- Witness for C10: toggling right after `playTrack(A)` (playing) pauses. -/
theorem togglePlayPause_flips_witness :
    Reachable (run (init none) [Event.playTrack trackA []]) ∧
    (run (init none) [Event.playTrack trackA []]).st.isPlaying = true ∧
    (togglePlayPause (run (init none) [Event.playTrack trackA []])).st.isPlaying = false ∧
    (togglePlayPause (run (init none) [Event.playTrack trackA []])).cmds =
      (run (init none) [Event.playTrack trackA []]).cmds ++ [SinkCmd.pause] :=
  have hr : Reachable (run (init none) [Event.playTrack trackA []]) := ⟨none, _, rfl⟩
  have h := togglePlayPause_flips _ hr trackA (by decide)
  ⟨hr, by decide, h.1.trans (by decide), h.2.2.2.trans (by decide)⟩

/-- C11 as stated fails: in the initial state no track is set, yet
`togglePlayPause()` turns `isPlaying` from false to true and the sink is
commanded to play. -/
theorem togglePlayPause_without_track_changes :
    (init none).st.currentTrack = none ∧
    (init none).st.isPlaying = false ∧
    (togglePlayPause (init none)).st.isPlaying = true ∧
    (togglePlayPause (init none)).cmds = (init none).cmds ++ [SinkCmd.play] := by
  decide

/-- C11, amended: in every state in which no track is set, `togglePlayPause()`
flips `isPlaying`, as it does in every other state, and leaves every other
field of the playback state unchanged. -/
theorem togglePlayPause_without_track (e : Engine) (_h : e.st.currentTrack = none) :
    (togglePlayPause e).st = { e.st with isPlaying := !e.st.isPlaying } := by
  unfold togglePlayPause
  rw [commit_st]
  rfl

/-- Witness for C11 amended: the initial state. -/
theorem togglePlayPause_without_track_witness :
    (init none).st.currentTrack = none ∧
    (togglePlayPause (init none)).st = { (init none).st with isPlaying := true } :=
  ⟨rfl, togglePlayPause_without_track (init none) rfl⟩

/-! ## The ended notification -/

theorem findIndexFrom_ge (p : Track → Bool) (xs : List Track) (i : Int) (hi : -1 ≤ i) :
    -1 ≤ findIndexFrom p xs i := by
  induction xs generalizing i with
  | nil => simp [findIndexFrom]
  | cons x xs ih =>
    unfold findIndexFrom
    by_cases hx : p x = true
    · simp only [hx, if_true]; exact hi
    · simp only [hx]
      exact ih (i + 1) (by omega)

theorem playNextWith_index_ge (q : List Track) (s : PlayerState) (h : -1 ≤ s.currentIndex) :
    -1 ≤ (playNextWith q s).currentIndex := by
  unfold playNextWith
  by_cases hc : s.currentIndex < (q.length : Int) - 1
  · simp only [hc, if_true]; omega
  · simp only [hc, if_false]; exact h

theorem step_index_ge (e : Engine) (ev : Event) (h : -1 ≤ e.st.currentIndex) :
    -1 ≤ (step e ev).st.currentIndex := by
  cases ev with
  | playTrack track tracks =>
    obtain ⟨-, -, h3⟩ := playTrack_st track tracks e
    show -1 ≤ (playTrack track tracks e).st.currentIndex
    rw [h3]
    by_cases hl : tracks.length > 0
    · simp only [hl, if_true]
      exact findIndexFrom_ge _ _ 0 (by omega)
    · simp only [hl, if_false]; omega
  | resumeResponse k r =>
    obtain ⟨-, -, g3⟩ := resumeResponse_st k r e
    show -1 ≤ (resumeResponse k r e).st.currentIndex
    rw [g3]; exact h
  | resumeSeekFire k =>
    simp only [step, resumeSeekFire, commit_st]
    unfold resumeSeekFireHandler
    cases e.pendingSeeks[k]? with
    | none => exact h
    | some p => cases e.audio <;> exact h
  | togglePlayPause =>
    simp only [step, togglePlayPause, commit_st]
    exact h
  | playNext =>
    simp only [step, playNext, commit_st]
    exact playNextWith_index_ge _ _ h
  | playPrevious =>
    simp only [step, playPrevious, commit_st]
    unfold playPreviousHandler
    by_cases ht : e.st.currentTime > 3
    · simp only [ht, if_true]
      cases e.audio <;> exact h
    · simp only [ht, if_false]
      by_cases hc : e.st.currentIndex > 0
      · simp only [hc, if_true]; omega
      · simp only [hc, if_false]; exact h
  | seek time =>
    simp only [step, seek, commit_st]
    unfold seekHandler
    cases e.audio <;> exact h
  | changeVolume v =>
    simp only [step, changeVolume, commit_st]
    exact h
  | timeProgressed t =>
    simp only [step, timeProgressed, commit_st]
    unfold updateTime
    cases e.audio <;> exact h
  | metadataLoaded d =>
    simp only [step, metadataLoaded, commit_st]
    unfold updateDuration
    cases e.audio <;> exact h
  | ended =>
    simp only [step, ended, commit_st]
    unfold handleEnded
    cases e.audio with
    | none => exact h
    | some a =>
      by_cases hc : e.st.currentIndex < (e.st.queue.length : Int) - 1
      · simp only [hc, if_true]
        exact playNextWith_index_ge _ _ h
      · simp only [hc, if_false]
        rw [savePlaybackPosition_st]
        exact h
  | saveTimerFire =>
    simp only [step, saveTimerFire]
    cases e.pendingSave with
    | none => exact h
    | some tc =>
      obtain ⟨t, c⟩ := tc
      simp only [savePlaybackPosition_st]
      exact h
  | setToken token => exact h
  | playRejected => exact h

theorem run_index_ge (evs : List Event) (e : Engine) (h : -1 ≤ e.st.currentIndex) :
    -1 ≤ (run e evs).st.currentIndex := by
  induction evs generalizing e with
  | nil => exact h
  | cons ev evs ih => exact ih (step e ev) (step_index_ge e ev h)

theorem reachable_index_ge (e : Engine) (h : Reachable e) : -1 ≤ e.st.currentIndex := by
  obtain ⟨token, evs, rfl⟩ := h
  exact run_index_ge evs (init token) (by show (-1 : Int) ≤ 0; omega)

theorem ended_st_of_audio (e : Engine) (a : Audio) (ha : e.audio = some a) :
    (ended e).st =
      if e.st.currentIndex < (e.st.queue.length : Int) - 1 then
        playNextWith e.listenerQueue e.st
      else { e.st with isPlaying := false, currentTime := 0 } := by
  unfold ended
  rw [commit_st]
  unfold handleEnded
  rw [ha]
  by_cases hc : e.st.currentIndex < (e.st.queue.length : Int) - 1
  · simp only [hc, if_true]
  · simp only [hc, if_false]
    rw [savePlaybackPosition_st]

/-- C12 as stated fails: play A in `[A, B]`, pause, and let the sink report
`ended` (the index 0 is not the last): the engine moves on to B, but
`isPlaying` stays false. -/
theorem ended_does_not_set_playing :
    (run (init none)
      [Event.playTrack trackA [trackA, trackB], Event.togglePlayPause]).st.currentIndex
      < ((run (init none)
        [Event.playTrack trackA [trackA, trackB], Event.togglePlayPause]).st.queue.length : Int)
        - 1 ∧
    (ended (run (init none)
      [Event.playTrack trackA [trackA, trackB], Event.togglePlayPause])).st.currentTrack
      = some trackB ∧
    (ended (run (init none)
      [Event.playTrack trackA [trackA, trackB], Event.togglePlayPause])).st.isPlaying
      = false := by
  decide

/-- C12, amended: in every state of the engine with `currentIndex <
queue.length - 1` whose `ended` listener was registered for the current queue,
after the `ended` notification is handled `currentIndex` is one more than
before, `currentTrack` is the queue element at that index, `currentTime` is 0,
and `isPlaying` is what it was before (true exactly when it was true). -/
theorem ended_advances (e : Engine) (hr : Reachable e)
    (hfresh : e.listenerQueue = e.st.queue)
    (h1 : e.st.currentIndex < (e.st.queue.length : Int) - 1) :
    (ended e).st.currentIndex = e.st.currentIndex + 1 ∧
    (∃ x, getIdx e.st.queue (e.st.currentIndex + 1) = some x ∧
      (ended e).st.currentTrack = some x) ∧
    (ended e).st.currentTime = 0 ∧
    (ended e).st.isPlaying = e.st.isPlaying ∧
    (ended e).st.queue = e.st.queue := by
  obtain ⟨a, ha⟩ := reachable_audio e hr
  have h0 := reachable_index_ge e hr
  obtain ⟨x, hx⟩ := getIdx_of_bounds e.st.queue (e.st.currentIndex + 1) (by omega) (by omega)
  have hs : (ended e).st =
      { e.st with
        currentIndex := e.st.currentIndex + 1
        currentTrack := getIdx e.st.queue (e.st.currentIndex + 1)
        currentTime := 0 } := by
    rw [ended_st_of_audio e a ha, hfresh]
    simp only [h1, if_true, playNextWith]
  rw [hs]
  exact ⟨rfl, ⟨x, hx, hx⟩, rfl, rfl, rfl⟩

/-- Witness for C12 amended: A ends while playing in `[A, B]`; B becomes
current and `isPlaying` is still true. -/
theorem ended_advances_witness :
    Reachable (run (init none) [Event.playTrack trackA [trackA, trackB]]) ∧
    (ended (run (init none) [Event.playTrack trackA [trackA, trackB]])).st.currentIndex = 1 ∧
    (ended (run (init none) [Event.playTrack trackA [trackA, trackB]])).st.currentTrack
      = some trackB ∧
    (ended (run (init none) [Event.playTrack trackA [trackA, trackB]])).st.isPlaying = true :=
  have hr : Reachable (run (init none) [Event.playTrack trackA [trackA, trackB]]) :=
    ⟨none, _, rfl⟩
  have h := ended_advances _ hr (by decide) (by decide)
  ⟨hr, h.1.trans (by decide), by decide, h.2.2.2.1.trans (by decide)⟩

/-- C13: in every state of the engine whose `currentIndex` is the final index
of the queue (`currentIndex >= queue.length - 1`), after the `ended`
notification is handled `isPlaying` is false and `currentTime` is 0, and
`currentTrack`, `queue` and `currentIndex` are what they were. -/
theorem ended_at_last_stops (e : Engine) (hr : Reachable e)
    (hlast : (e.st.queue.length : Int) - 1 ≤ e.st.currentIndex) :
    (ended e).st.isPlaying = false ∧
    (ended e).st.currentTime = 0 ∧
    (ended e).st.currentTrack = e.st.currentTrack ∧
    (ended e).st.queue = e.st.queue ∧
    (ended e).st.currentIndex = e.st.currentIndex := by
  obtain ⟨a, ha⟩ := reachable_audio e hr
  have hno : ¬ e.st.currentIndex < (e.st.queue.length : Int) - 1 := by omega
  rw [ended_st_of_audio e a ha]
  simp only [hno, if_false]
  exact ⟨trivial, trivial, trivial, trivial, trivial⟩

/-- Witness for C13: `playTrack(A, [A])` followed by `ended`. -/
theorem ended_at_last_stops_witness :
    Reachable (run (init none) [Event.playTrack trackA [trackA]]) ∧
    (run (init none) [Event.playTrack trackA [trackA]]).st.isPlaying = true ∧
    (ended (run (init none) [Event.playTrack trackA [trackA]])).st.isPlaying = false ∧
    (ended (run (init none) [Event.playTrack trackA [trackA]])).st.currentTime = 0 ∧
    (ended (run (init none) [Event.playTrack trackA [trackA]])).st.currentTrack
      = some trackA :=
  have hr : Reachable (run (init none) [Event.playTrack trackA [trackA]]) := ⟨none, _, rfl⟩
  have h := ended_at_last_stops _ hr (by decide)
  ⟨hr, by decide, h.1, h.2.1, h.2.2.1.trans (by decide)⟩

theorem commit_requests (prev : PlayerState) (e : Engine) :
    (commit prev e).requests = e.requests := by
  unfold commit
  cases e.audio <;> rfl

theorem commit_token (prev : PlayerState) (e : Engine) :
    (commit prev e).token = e.token := by
  unfold commit
  cases e.audio <;> rfl

/-- C14 as stated fails: without a stored token, `playTrack(A, [A])` followed by
`ended` at the final index sends nothing to the history collaborator. -/
theorem ended_without_token_saves_nothing :
    ((run (init none) [Event.playTrack trackA [trackA]]).st.queue.length : Int) - 1
      ≤ (run (init none) [Event.playTrack trackA [trackA]]).st.currentIndex ∧
    (run (init none) [Event.playTrack trackA [trackA]]).st.currentTrack = some trackA ∧
    (ended (run (init none) [Event.playTrack trackA [trackA]])).requests = [] := by
  decide

/-- C14, amended: in every state of the engine whose `currentIndex` is the final
index of the queue, handling `ended` issues exactly one position-save when a
track is current and a token is stored: position 0 with the id of the current
track, as `trackId`, or as `podcastId` when the track has a `host` field.
Without a current track or without a token it issues no request. -/
theorem ended_at_last_saves (e : Engine) (hr : Reachable e)
    (hlast : (e.st.queue.length : Int) - 1 ≤ e.st.currentIndex) :
    (∀ t, e.st.currentTrack = some t → tokenTruthy e.token = true →
      (ended e).requests = e.requests ++
        [HistoryReq.save (if t.host != JSVal.undefined then JSVal.null else t.trackId)
          (if t.host != JSVal.undefined then t.trackId else JSVal.null) 0]) ∧
    ((e.st.currentTrack = none ∨ tokenTruthy e.token = false) →
      (ended e).requests = e.requests) := by
  obtain ⟨a, ha⟩ := reachable_audio e hr
  have hno : ¬ e.st.currentIndex < (e.st.queue.length : Int) - 1 := by omega
  have hreq : (ended e).requests =
      (savePlaybackPosition e.st.currentTrack 0
        { e with st := { e.st with isPlaying := false, currentTime := 0 } }).requests := by
    unfold ended
    rw [commit_requests]
    unfold handleEnded
    rw [ha]
    simp only [hno, if_false]
  rw [hreq]
  constructor
  · intro t ht htok
    rw [ht]
    simp [savePlaybackPosition, htok]
  · rintro (hn | htok)
    · rw [hn]; rfl
    · cases hct : e.st.currentTrack with
      | none => rfl
      | some t => simp [savePlaybackPosition, htok]

/-- Witness for C14 amended: with a token, `playTrack(A, [A])` (its lookup
failing) followed by `ended` issues the save of position 0 for A. -/
theorem ended_at_last_saves_witness :
    Reachable (run (init (some "tok"))
      [Event.playTrack trackA [trackA], Event.resumeResponse 0 LookupResult.error]) ∧
    (ended (run (init (some "tok"))
      [Event.playTrack trackA [trackA], Event.resumeResponse 0 LookupResult.error])).requests
      = [HistoryReq.resume (JSVal.str "A"), HistoryReq.save (JSVal.str "A") JSVal.null 0] :=
  have hr : Reachable (run (init (some "tok"))
      [Event.playTrack trackA [trackA], Event.resumeResponse 0 LookupResult.error]) :=
    ⟨some "tok", _, rfl⟩
  have h := (ended_at_last_saves _ hr (by decide)).1 trackA (by decide) (by decide)
  ⟨hr, h.trans (by decide)⟩

/-! ## The debounce of the position save -/

theorem timeProgressed_of_audio (t : ℚ) (e : Engine) (a : Audio) (ha : e.audio = some a) :
    timeProgressed t e =
      { e with
        audio := some { a with currentTime := t }
        st := { e.st with currentTime := t }
        pendingSave := some (t, e.st.currentTrack) } := by
  have hh : updateTime t e =
      { e with
        audio := some { a with currentTime := t }
        st := { e.st with currentTime := t }
        pendingSave := some (t, e.st.currentTrack) } := by
    unfold updateTime
    simp [ha]
  have hc : timeProgressed t e = updateTime t e := by
    unfold timeProgressed
    apply commit_of_unchanged <;> rw [hh]
  rw [hc, hh]

theorem elapse_audio_isSome (τ : Nat) (c : Clocked) :
    (elapse τ c).eng.audio.isSome = c.eng.audio.isSome := by
  unfold elapse
  by_cases h : (c.eng.pendingSave.isSome && decide (c.saveDue ≤ τ)) = true
  · simp only [h, if_true]
    exact step_audio_isSome c.eng Event.saveTimerFire
  · simp only [h]
    rfl

theorem armed_first (c : Clocked) (n : Nat × ℚ) (ha : c.eng.audio.isSome = true) :
    Armed (elapse n.1 c).eng n (timeProgressedAt n.1 n.2 c) := by
  have h1 : (elapse n.1 c).eng.audio.isSome = true := by
    rw [elapse_audio_isSome]; exact ha
  obtain ⟨a, ha2⟩ := Option.isSome_iff_exists.mp h1
  have he : (timeProgressedAt n.1 n.2 c).eng = timeProgressed n.2 (elapse n.1 c).eng := rfl
  have hd : (timeProgressedAt n.1 n.2 c).saveDue = n.1 + saveDelay := rfl
  unfold Armed
  rw [he, hd, timeProgressed_of_audio n.2 (elapse n.1 c).eng a ha2]
  exact ⟨rfl, rfl, rfl, rfl, rfl, rfl⟩

theorem armed_next (base : Engine) (n m : Nat × ℚ) (c : Clocked) (h : Armed base n c)
    (hgap : m.1 < n.1 + saveDelay) : Armed base m (timeProgressedAt m.1 m.2 c) := by
  obtain ⟨h1, h2, h3, h4, h5, h6⟩ := h
  have hquiet : elapse m.1 c = { c with now := m.1 } := by
    unfold elapse
    have : ¬ c.saveDue ≤ m.1 := by omega
    simp [this]
  obtain ⟨a, ha⟩ := Option.isSome_iff_exists.mp h6
  have he : (timeProgressedAt m.1 m.2 c).eng = timeProgressed m.2 c.eng := by
    show timeProgressed m.2 (elapse m.1 c).eng = timeProgressed m.2 c.eng
    rw [hquiet]
  have hd : (timeProgressedAt m.1 m.2 c).saveDue = m.1 + saveDelay := rfl
  unfold Armed
  rw [he, hd, timeProgressed_of_audio m.2 c.eng a ha]
  exact ⟨h1, h2, h3, by rw [← h3], rfl, rfl⟩

theorem armed_notifyAll (base : Engine) (ns : List (Nat × ℚ)) (n : Nat × ℚ) (c : Clocked)
    (h : Armed base n c) (hgap : List.Chain (fun a b => b.1 < a.1 + saveDelay) n ns) :
    Armed base ((n :: ns).getLast (List.cons_ne_nil n ns)) (notifyAll c ns) := by
  induction ns generalizing n c with
  | nil => exact h
  | cons m ns ih =>
    obtain ⟨hnm, hrest⟩ := List.chain_cons.mp hgap
    have h2 := ih m (timeProgressedAt m.1 m.2 c) (armed_next base n m c h hnm) hrest
    rw [List.getLast_cons_cons]
    exact h2

theorem armed_fire (base : Engine) (n : Nat × ℚ) (c : Clocked) (h : Armed base n c)
    (τ : Nat) (hdue : n.1 + saveDelay ≤ τ) :
    (elapse τ c).eng.requests =
      base.requests ++
        (match base.st.currentTrack with
         | none => []
         | some t =>
           if tokenTruthy base.token then
             [HistoryReq.save (if t.host != JSVal.undefined then JSVal.null else t.trackId)
               (if t.host != JSVal.undefined then t.trackId else JSVal.null) n.2]
           else []) ∧
    (elapse τ c).eng.pendingSave = none := by
  obtain ⟨h1, h2, h3, h4, h5, h6⟩ := h
  have hd : c.saveDue ≤ τ := by omega
  unfold elapse
  simp only [h4, Option.isSome_some, hd, decide_True, Bool.and_self, if_true]
  unfold saveTimerFire
  simp only [h4]
  cases hct : base.st.currentTrack with
  | none => simp [savePlaybackPosition, h1]
  | some t =>
    by_cases htok : tokenTruthy base.token = true
    · simp [savePlaybackPosition, h1, h2, htok]
    · simp [savePlaybackPosition, h1, h2, htok]

/-- C15: for every burst of time-progressed notifications in which each arrives
less than 5000 ms after the one before, followed by a quiet span that reaches
5000 ms past the last arrival, the requests issued from the first notification
on are at most one, it is a position-save, and its position is the time the
last notification reported; with a current track and a token it is exactly one.
No timer is left pending. -/
theorem debounce_single_save (c : Clocked) (hr : Reachable c.eng) (n : Nat × ℚ)
    (ns : List (Nat × ℚ))
    (hgap : List.Chain (fun a b => b.1 < a.1 + saveDelay) n ns) (τ : Nat)
    (hquiet : ((n :: ns).getLast (List.cons_ne_nil n ns)).1 + saveDelay ≤ τ) :
    ∃ l : List HistoryReq,
      (elapse τ (notifyAll c (n :: ns))).eng.requests = (elapse n.1 c).eng.requests ++ l ∧
      l.length ≤ 1 ∧
      (∀ r ∈ l, ∃ a b, r = HistoryReq.save a b ((n :: ns).getLast (List.cons_ne_nil n ns)).2) ∧
      ((elapse n.1 c).eng.st.currentTrack ≠ none →
        tokenTruthy (elapse n.1 c).eng.token = true → l.length = 1) ∧
      (elapse τ (notifyAll c (n :: ns))).eng.pendingSave = none := by
  obtain ⟨a, ha⟩ := reachable_audio c.eng hr
  have hsome : c.eng.audio.isSome = true := by rw [ha]; rfl
  have harm := armed_notifyAll (elapse n.1 c).eng ns n (timeProgressedAt n.1 n.2 c)
    (armed_first c n hsome) hgap
  have hfold : notifyAll c (n :: ns) = notifyAll (timeProgressedAt n.1 n.2 c) ns := rfl
  obtain ⟨hreq, hpend⟩ := armed_fire (elapse n.1 c).eng _ _ harm τ hquiet
  rw [hfold]
  refine ⟨_, hreq, ?_, ?_, ?_, hpend⟩
  · cases (elapse n.1 c).eng.st.currentTrack with
    | none => simp
    | some t => by_cases htok : tokenTruthy (elapse n.1 c).eng.token = true <;> simp [htok]
  · intro r hrmem
    cases hct : (elapse n.1 c).eng.st.currentTrack with
    | none => rw [hct] at hrmem; simp at hrmem
    | some t =>
      rw [hct] at hrmem
      by_cases htok : tokenTruthy (elapse n.1 c).eng.token = true
      · simp only [htok, if_true, List.mem_singleton] at hrmem
        exact ⟨_, _, hrmem⟩
      · simp [htok] at hrmem
  · intro hne htok
    cases hct : (elapse n.1 c).eng.st.currentTrack with
    | none => exact absurd hct hne
    | some t => simp [htok]

/-- Witness for C15: five notifications 200 ms apart while A plays for an
authenticated caller, then silence until 5000 ms after the last one: one save,
of the position the fifth notification reported. -/
theorem debounce_single_save_witness :
    Reachable (run (init (some "tok"))
      [Event.playTrack trackA [], Event.resumeResponse 0 LookupResult.error]) ∧
    (elapse 6800 (notifyAll
      { eng := run (init (some "tok"))
          [Event.playTrack trackA [], Event.resumeResponse 0 LookupResult.error] }
      [(1000, 1), (1200, 2), (1400, 3), (1600, 4), (1800, 5)])).eng.requests =
      [HistoryReq.resume (JSVal.str "A"), HistoryReq.save (JSVal.str "A") JSVal.null 5] ∧
    ∃ l : List HistoryReq,
      (elapse 6800 (notifyAll
        { eng := run (init (some "tok"))
            [Event.playTrack trackA [], Event.resumeResponse 0 LookupResult.error] }
        [(1000, 1), (1200, 2), (1400, 3), (1600, 4), (1800, 5)])).eng.requests =
        [HistoryReq.resume (JSVal.str "A")] ++ l ∧ l.length ≤ 1 :=
  have hr : Reachable (run (init (some "tok"))
      [Event.playTrack trackA [], Event.resumeResponse 0 LookupResult.error]) :=
    ⟨some "tok", _, rfl⟩
  have h := debounce_single_save
    { eng := run (init (some "tok"))
        [Event.playTrack trackA [], Event.resumeResponse 0 LookupResult.error] }
    hr (1000, 1) [(1200, 2), (1400, 3), (1600, 4), (1800, 5)]
    (List.Chain.cons (by decide) (List.Chain.cons (by decide) (List.Chain.cons (by decide)
      (List.Chain.cons (by decide) List.Chain.nil))))
    6800 (by decide)
  ⟨hr, by decide, h.elim (fun l hl => ⟨l, hl.1, hl.2.1⟩)⟩

/-! ## The pending timer and the current track -/

theorem commit_pendingSave_of_track_change (prev : PlayerState) (e : Engine) (a : Audio)
    (ha : e.audio = some a) (hne : prev.currentTrack ≠ e.st.currentTrack) :
    (commit prev e).pendingSave = none := by
  unfold commit
  rw [ha]
  simp [hne]

theorem commit_pendingOwned (prev : PlayerState) (e : Engine) (ha : e.audio.isSome = true)
    (h : prev.currentTrack = e.st.currentTrack → PendingOwned e) :
    PendingOwned (commit prev e) := by
  obtain ⟨a, ha2⟩ := Option.isSome_iff_exists.mp ha
  by_cases ht : prev.currentTrack = e.st.currentTrack
  · intro t c hp
    rw [commit_st]
    by_cases hl : (decide (prev.currentIndex ≠ e.st.currentIndex) ||
        decide (prev.queue.length ≠ e.st.queue.length) ||
        decide (prev.currentTrack ≠ e.st.currentTrack)) = true
    · have hnone : (commit prev e).pendingSave = none := by
        unfold commit
        rw [ha2]
        simp only [hl, if_true]
      rw [hnone] at hp
      exact Option.noConfusion hp
    · have hsame : (commit prev e).pendingSave = e.pendingSave := by
        unfold commit
        rw [ha2]
        simp only [hl]
        rfl
      rw [hsame] at hp
      exact h ht t c hp
  · intro t c hp
    rw [commit_pendingSave_of_track_change prev e a ha2 ht] at hp
    exact Option.noConfusion hp

theorem owned_of_eq (e e2 : Engine) (hp : e2.pendingSave = e.pendingSave)
    (h : PendingOwned e) (ht : e.st.currentTrack = e2.st.currentTrack) : PendingOwned e2 := by
  intro t c hc
  rw [hp] at hc
  rw [← ht]
  exact h t c hc

theorem savePlaybackPosition_pendingSave (captured : Option Track) (position : ℚ)
    (e : Engine) : (savePlaybackPosition captured position e).pendingSave = e.pendingSave := by
  unfold savePlaybackPosition
  cases captured with
  | none => rfl
  | some t => by_cases ht : tokenTruthy e.token = true <;> simp [ht]

theorem step_pendingOwned (e : Engine) (ev : Event) (ha : e.audio.isSome = true)
    (h : PendingOwned e) : PendingOwned (step e ev) := by
  have hau : ∀ x : Engine, commit e.st x = step e ev → x.audio.isSome = true := by
    intro x hx
    rw [← commit_audio_isSome e.st x, hx, step_audio_isSome]
    exact ha
  cases ev with
  | playTrack track tracks =>
    refine commit_pendingOwned _ _ (hau _ rfl) (fun ht => owned_of_eq e _ ?_ h ht)
    unfold playTrackHandler
    by_cases htok : tokenTruthy e.token = true <;> simp [htok]
  | resumeResponse k r =>
    refine commit_pendingOwned _ _ (hau _ rfl) (fun ht => owned_of_eq e _ ?_ h ht)
    unfold resumeResponseHandler
    by_cases hk : k < e.pendingLookups.length
    · rcases r with _ | ⟨_ | _, position⟩
      · simp [hk]
      · simp [hk]
      · by_cases hp : position > 0 <;> simp [hk, hp]
    · simp [hk]
  | resumeSeekFire k =>
    refine commit_pendingOwned _ _ (hau _ rfl) (fun ht => owned_of_eq e _ ?_ h ht)
    unfold resumeSeekFireHandler
    cases e.pendingSeeks[k]? with
    | none => rfl
    | some p => cases e.audio <;> rfl
  | togglePlayPause =>
    exact commit_pendingOwned _ _ (hau _ rfl) (fun ht => owned_of_eq e _ rfl h ht)
  | playNext =>
    exact commit_pendingOwned _ _ (hau _ rfl) (fun ht => owned_of_eq e _ rfl h ht)
  | playPrevious =>
    refine commit_pendingOwned _ _ (hau _ rfl) (fun ht => owned_of_eq e _ ?_ h ht)
    unfold playPreviousHandler
    by_cases ht : e.st.currentTime > 3
    · simp only [ht, if_true]
      cases e.audio <;> rfl
    · by_cases hc : e.st.currentIndex > 0 <;> simp [ht, hc]
  | seek time =>
    refine commit_pendingOwned _ _ (hau _ rfl) (fun ht => owned_of_eq e _ ?_ h ht)
    unfold seekHandler
    cases e.audio <;> rfl
  | changeVolume v =>
    exact commit_pendingOwned _ _ (hau _ rfl) (fun ht => owned_of_eq e _ rfl h ht)
  | timeProgressed t =>
    obtain ⟨a, ha2⟩ := Option.isSome_iff_exists.mp ha
    show PendingOwned (timeProgressed t e)
    rw [timeProgressed_of_audio t e a ha2]
    intro t2 c hc
    simp only [Option.some.injEq, Prod.mk.injEq] at hc
    exact hc.2.symm
  | metadataLoaded d =>
    refine commit_pendingOwned _ _ (hau _ rfl) (fun ht => owned_of_eq e _ ?_ h ht)
    unfold updateDuration
    cases e.audio <;> rfl
  | ended =>
    refine commit_pendingOwned _ _ (hau _ rfl) (fun ht => owned_of_eq e _ ?_ h ht)
    unfold handleEnded
    cases e.audio with
    | none => rfl
    | some a =>
      by_cases hc : e.st.currentIndex < (e.st.queue.length : Int) - 1
      · simp only [hc, if_true]
      · simp only [hc, if_false]
        rw [savePlaybackPosition_pendingSave]
  | saveTimerFire =>
    show PendingOwned (saveTimerFire e)
    unfold saveTimerFire
    cases hp : e.pendingSave with
    | none => exact h
    | some tc =>
      obtain ⟨t, c⟩ := tc
      intro t2 c2 hc
      simp only [savePlaybackPosition_pendingSave] at hc
      exact Option.noConfusion hc
  | setToken token => exact h
  | playRejected => exact h

theorem reachable_pendingOwned (e : Engine) (hr : Reachable e) : PendingOwned e := by
  obtain ⟨token, evs, rfl⟩ := hr
  have key : ∀ (evs : List Event) (e : Engine), e.audio.isSome = true → PendingOwned e →
      PendingOwned (run e evs) := by
    intro evs
    induction evs with
    | nil => intro e _ h; exact h
    | cons ev evs ih =>
      intro e ha h
      exact ih (step e ev) (by rw [step_audio_isSome]; exact ha) (step_pendingOwned e ev ha h)
  exact key evs (init token) rfl (fun t c hc => Option.noConfusion hc)

theorem playTrackHandler_audio (T : Track) (Q : List Track) (e : Engine) :
    (playTrackHandler T Q e).audio = e.audio := by
  unfold playTrackHandler
  by_cases htok : tokenTruthy e.token = true <;> simp [htok]

theorem playPreviousHandler_track_change (e : Engine)
    (h : (playPreviousHandler e).st.currentTrack ≠ e.st.currentTrack) :
    (playPreviousHandler e).audio = e.audio := by
  unfold playPreviousHandler at h ⊢
  by_cases ht : e.st.currentTime > 3
  · simp only [ht, if_true] at h
    cases hau : e.audio <;> simp [hau] at h
  · by_cases hc : e.st.currentIndex > 0 <;> simp [ht, hc]

/-- C16: in every state of the engine, a pending debounce timer belongs to the
current track (the track that was current when its time was reported), and when
it fires the save goes out under that track's id.  Whenever `playTrack`,
`playNext` or `playPrevious` changes the current track, the pending timer is
cancelled, so no time reported for the previous track is saved at all, let
alone under the new track's id. -/
theorem track_change_cancels_timer (e : Engine) (hr : Reachable e) :
    (∀ (t : ℚ) (c : Option Track), e.pendingSave = some (t, c) →
      c = e.st.currentTrack ∧
      (saveTimerFire e).requests = (savePlaybackPosition e.st.currentTrack t e).requests) ∧
    (∀ (T : Track) (Q : List Track),
      (playTrack T Q e).st.currentTrack ≠ e.st.currentTrack →
      (playTrack T Q e).pendingSave = none) ∧
    ((playNext e).st.currentTrack ≠ e.st.currentTrack → (playNext e).pendingSave = none) ∧
    ((playPrevious e).st.currentTrack ≠ e.st.currentTrack →
      (playPrevious e).pendingSave = none) := by
  obtain ⟨a, ha⟩ := reachable_audio e hr
  refine ⟨?_, ?_, ?_, ?_⟩
  · intro t c hp
    have hc := reachable_pendingOwned e hr t c hp
    refine ⟨hc, ?_⟩
    unfold saveTimerFire
    rw [hp, hc]
    simp only
    unfold savePlaybackPosition
    cases e.st.currentTrack with
    | none => rfl
    | some tr => by_cases htok : tokenTruthy e.token = true <;> simp [htok]
  · intro T Q hne
    unfold playTrack at hne ⊢
    rw [commit_st] at hne
    exact commit_pendingSave_of_track_change _ _ a
      ((playTrackHandler_audio T Q e).trans ha) (Ne.symm hne)
  · intro hne
    unfold playNext at hne ⊢
    rw [commit_st] at hne
    exact commit_pendingSave_of_track_change _ _ a ha (Ne.symm hne)
  · intro hne
    unfold playPrevious at hne ⊢
    rw [commit_st] at hne
    exact commit_pendingSave_of_track_change _ _ a
      ((playPreviousHandler_track_change e hne).trans ha) (Ne.symm hne)

/-- Witness for C16: A plays in `[A, B]` for an authenticated caller, the sink
reports 7 s (timer pending for A), then `playNext()` makes B current: the timer
is gone. -/
theorem track_change_cancels_timer_witness :
    Reachable (run (init (some "tok"))
      [Event.playTrack trackA [trackA, trackB], Event.resumeResponse 0 LookupResult.error,
        Event.timeProgressed 7]) ∧
    (run (init (some "tok"))
      [Event.playTrack trackA [trackA, trackB], Event.resumeResponse 0 LookupResult.error,
        Event.timeProgressed 7]).pendingSave = some (7, some trackA) ∧
    (playNext (run (init (some "tok"))
      [Event.playTrack trackA [trackA, trackB], Event.resumeResponse 0 LookupResult.error,
        Event.timeProgressed 7])).st.currentTrack = some trackB ∧
    (playNext (run (init (some "tok"))
      [Event.playTrack trackA [trackA, trackB], Event.resumeResponse 0 LookupResult.error,
        Event.timeProgressed 7])).pendingSave = none :=
  have hr : Reachable (run (init (some "tok"))
      [Event.playTrack trackA [trackA, trackB], Event.resumeResponse 0 LookupResult.error,
        Event.timeProgressed 7]) := ⟨some "tok", _, rfl⟩
  ⟨hr, by decide, by decide, (track_change_cancels_timer _ hr).2.2.1 (by decide)⟩

/-! ## The resume lookup -/

theorem commit_pendingSeeks (prev : PlayerState) (e : Engine) :
    (commit prev e).pendingSeeks = e.pendingSeeks := by
  unfold commit
  cases e.audio <;> rfl

theorem commit_pendingLookups (prev : PlayerState) (e : Engine) :
    (commit prev e).pendingLookups = e.pendingLookups := by
  unfold commit
  cases e.audio <;> rfl

theorem commit_seek_mem (prev : PlayerState) (e : Engine) (t : ℚ) :
    SinkCmd.seek t ∈ (commit prev e).cmds ↔ SinkCmd.seek t ∈ e.cmds := by
  unfold commit
  cases e.audio with
  | none => rfl
  | some a =>
    simp only [List.mem_append]
    constructor
    · rintro ((h | h) | h)
      · exact h
      · split at h
        · split at h <;> simp at h
        · simp at h
      · split at h <;> simp at h
    · intro h
      exact Or.inl (Or.inl h)

theorem resumeResponse_pos (k : Nat) (e : Engine) (p : ℚ) (hk : k < e.pendingLookups.length)
    (hp : 0 < p) :
    (resumeResponse k (LookupResult.ok true p) e).st =
      { e.st with resumePosition := p, isPlaying := true } ∧
    (resumeResponse k (LookupResult.ok true p) e).pendingSeeks = e.pendingSeeks ++ [p] := by
  have hp2 : p > 0 := hp
  unfold resumeResponse
  rw [commit_st, commit_pendingSeeks]
  unfold resumeResponseHandler
  simp [hk, hp2]

theorem resumeResponse_nopos (k : Nat) (e : Engine) (r : LookupResult)
    (hk : k < e.pendingLookups.length) (hr : ∀ p, r = LookupResult.ok true p → p ≤ 0) :
    (resumeResponse k r e).st = { e.st with isPlaying := true } ∧
    (resumeResponse k r e).pendingSeeks = e.pendingSeeks ∧
    resumeResponseHandler k r e =
      { e with
        pendingLookups := e.pendingLookups.eraseIdx k
        st := { e.st with isPlaying := true } } := by
  have hh : resumeResponseHandler k r e =
      { e with
        pendingLookups := e.pendingLookups.eraseIdx k
        st := { e.st with isPlaying := true } } := by
    unfold resumeResponseHandler
    rcases r with _ | ⟨_ | _, position⟩
    · simp [hk]
    · simp [hk]
    · have hnp : ¬ position > 0 := not_lt.mpr (hr position rfl)
      simp [hk, hnp]
  unfold resumeResponse
  rw [commit_st, commit_pendingSeeks, hh]
  exact ⟨rfl, rfl, rfl⟩

theorem resumeSeekFire_of (k : Nat) (e : Engine) (p : ℚ) (a : Audio)
    (hp : e.pendingSeeks[k]? = some p) (ha : e.audio = some a) :
    resumeSeekFire k e =
      { e with
        pendingSeeks := e.pendingSeeks.eraseIdx k
        audio := some { a with currentTime := p }
        cmds := e.cmds ++ [SinkCmd.seek p]
        st := { e.st with currentTime := p } } := by
  have hh : resumeSeekFireHandler k e =
      { e with
        pendingSeeks := e.pendingSeeks.eraseIdx k
        audio := some { a with currentTime := p }
        cmds := e.cmds ++ [SinkCmd.seek p]
        st := { e.st with currentTime := p } } := by
    unfold resumeSeekFireHandler
    simp [hp, ha]
  have hc : resumeSeekFire k e = resumeSeekFireHandler k e := by
    unfold resumeSeekFire
    apply commit_of_unchanged <;> rw [hh]
  rw [hc, hh]

/-- C17 as stated fails: `playTrack(A, [A, B])` for an authenticated caller
starts the lookup for A; `playNext()` makes B current before the response; the
late response (position 30) then sets `resumePosition` and `isPlaying`, and its
delayed seek moves the sink and `currentTime` to 30 while B is current. -/
theorem late_resume_response_applies :
    (run (init (some "tok"))
      [Event.playTrack trackA [trackA, trackB], Event.playNext]).st.currentTrack
      = some trackB ∧
    (run (init (some "tok"))
      [Event.playTrack trackA [trackA, trackB], Event.playNext]).pendingLookups
      = [JSVal.str "A"] ∧
    (run (init (some "tok"))
      [Event.playTrack trackA [trackA, trackB], Event.playNext]).st.isPlaying = false ∧
    (run (init (some "tok"))
      [Event.playTrack trackA [trackA, trackB], Event.playNext,
        Event.resumeResponse 0 (LookupResult.ok true 30)]).st.isPlaying = true ∧
    (run (init (some "tok"))
      [Event.playTrack trackA [trackA, trackB], Event.playNext,
        Event.resumeResponse 0 (LookupResult.ok true 30)]).st.resumePosition = 30 ∧
    (run (init (some "tok"))
      [Event.playTrack trackA [trackA, trackB], Event.playNext,
        Event.resumeResponse 0 (LookupResult.ok true 30),
        Event.resumeSeekFire 0]).st.currentTrack = some trackB ∧
    (run (init (some "tok"))
      [Event.playTrack trackA [trackA, trackB], Event.playNext,
        Event.resumeResponse 0 (LookupResult.ok true 30),
        Event.resumeSeekFire 0]).st.currentTime = 30 ∧
    SinkCmd.seek 30 ∈ (run (init (some "tok"))
      [Event.playTrack trackA [trackA, trackB], Event.playNext,
        Event.resumeResponse 0 (LookupResult.ok true 30),
        Event.resumeSeekFire 0]).cmds := by
  decide

/-- C17, amended: in every state of the engine, the response of a pending
resume lookup is applied whatever track is current by then: it sets `isPlaying`
to true and leaves `currentTrack`, `queue` and `currentIndex` alone; when it
carries a saved position `p > 0` it sets `resumePosition` to `p` and schedules a
seek that, when its delay has elapsed, commands the sink to `p` and sets
`currentTime` to `p`. -/
theorem resume_response_unguarded (e : Engine) (hr : Reachable e) (k : Nat)
    (hk : k < e.pendingLookups.length) (r : LookupResult) :
    (resumeResponse k r e).st.isPlaying = true ∧
    (resumeResponse k r e).st.currentTrack = e.st.currentTrack ∧
    (resumeResponse k r e).st.queue = e.st.queue ∧
    (resumeResponse k r e).st.currentIndex = e.st.currentIndex ∧
    (∀ p : ℚ, 0 < p → r = LookupResult.ok true p →
      (resumeResponse k r e).st.resumePosition = p ∧
      (resumeSeekFire e.pendingSeeks.length (resumeResponse k r e)).st.currentTime = p ∧
      (resumeSeekFire e.pendingSeeks.length (resumeResponse k r e)).cmds =
        (resumeResponse k r e).cmds ++ [SinkCmd.seek p]) := by
  obtain ⟨g1, g2, g3⟩ := resumeResponse_st k r e
  refine ⟨?_, g1, g2, g3, ?_⟩
  · by_cases hpos : ∃ p, r = LookupResult.ok true p ∧ 0 < p
    · obtain ⟨p, rfl, hp⟩ := hpos
      rw [(resumeResponse_pos k e p hk hp).1]
    · rw [(resumeResponse_nopos k e r hk (fun p hrp => not_lt.mp (fun hp => hpos ⟨p, hrp, hp⟩))).1]
  · intro p hp hrp
    subst hrp
    obtain ⟨hst, hseeks⟩ := resumeResponse_pos k e p hk hp
    have hr2 : Reachable (resumeResponse k (LookupResult.ok true p) e) := by
      obtain ⟨token, evs, rfl⟩ := hr
      exact ⟨token, evs ++ [Event.resumeResponse k (LookupResult.ok true p)], by
        simp [run, List.foldl_append, step]⟩
    obtain ⟨a, ha⟩ := reachable_audio _ hr2
    have hget : (resumeResponse k (LookupResult.ok true p) e).pendingSeeks[e.pendingSeeks.length]?
        = some p := by
      rw [hseeks]
      simp
    rw [resumeSeekFire_of _ _ p a hget ha, hst]
    exact ⟨rfl, rfl, rfl⟩

/-- Witness for C17 amended: the late response for A arriving while B is
current. -/
theorem resume_response_unguarded_witness :
    Reachable (run (init (some "tok"))
      [Event.playTrack trackA [trackA, trackB], Event.playNext]) ∧
    (resumeResponse 0 (LookupResult.ok true 30) (run (init (some "tok"))
      [Event.playTrack trackA [trackA, trackB], Event.playNext])).st.isPlaying = true ∧
    (resumeResponse 0 (LookupResult.ok true 30) (run (init (some "tok"))
      [Event.playTrack trackA [trackA, trackB], Event.playNext])).st.currentTrack
      = some trackB ∧
    (resumeResponse 0 (LookupResult.ok true 30) (run (init (some "tok"))
      [Event.playTrack trackA [trackA, trackB], Event.playNext])).st.resumePosition = 30 :=
  have hr : Reachable (run (init (some "tok"))
      [Event.playTrack trackA [trackA, trackB], Event.playNext]) := ⟨some "tok", _, rfl⟩
  have h := resume_response_unguarded _ hr 0 (by decide) (LookupResult.ok true 30)
  ⟨hr, h.1, h.2.1.trans (by decide), (h.2.2.2.2 30 (by decide) rfl).1⟩

theorem resumeResponseHandler_nopos_eq (k : Nat) (e : Engine) (r : LookupResult)
    (hr : ∀ p, r = LookupResult.ok true p → p ≤ 0) :
    resumeResponseHandler k r e = resumeResponseHandler k LookupResult.error e := by
  by_cases hk : k < e.pendingLookups.length
  · rw [(resumeResponse_nopos k e r hk hr).2.2,
      (resumeResponse_nopos k e LookupResult.error hk (fun p h => LookupResult.noConfusion h)).2.2]
  · unfold resumeResponseHandler
    simp [hk]

theorem playTrack_pendingLookups (T : Track) (Q : List Track) (e : Engine)
    (htok : tokenTruthy e.token = true) :
    (playTrack T Q e).pendingLookups = e.pendingLookups ++ [T.trackId] ∧
    (playTrack T Q e).pendingSeeks = e.pendingSeeks ∧
    (playTrack T Q e).token = e.token := by
  unfold playTrack
  rw [commit_pendingLookups, commit_pendingSeeks, commit_token]
  unfold playTrackHandler
  simp [htok]

theorem playTrackComplete_of_token (T : Track) (Q : List Track) (r : LookupResult)
    (e : Engine) (htok : tokenTruthy e.token = true) :
    playTrackComplete T Q r e = resumeResponse e.pendingLookups.length r (playTrack T Q e) ∧
    e.pendingLookups.length < (playTrack T Q e).pendingLookups.length := by
  obtain ⟨hl, -, -⟩ := playTrack_pendingLookups T Q e htok
  unfold playTrackComplete
  simp only [htok, if_true, hl, List.length_append, List.length_singleton]
  exact ⟨by simp, by omega⟩

theorem playTrackComplete_isPlaying (T : Track) (Q : List Track) (r : LookupResult)
    (e : Engine) : (playTrackComplete T Q r e).st.isPlaying = true := by
  by_cases htok : tokenTruthy e.token = true
  · obtain ⟨hc, hk⟩ := playTrackComplete_of_token T Q r e htok
    rw [hc]
    by_cases hpos : ∃ p, r = LookupResult.ok true p ∧ 0 < p
    · obtain ⟨p, rfl, hp⟩ := hpos
      rw [(resumeResponse_pos _ _ p hk hp).1]
    · rw [(resumeResponse_nopos _ _ r hk
        (fun p hrp => not_lt.mp (fun hp => hpos ⟨p, hrp, hp⟩))).1]
  · unfold playTrackComplete
    rw [if_neg htok]
    unfold playTrack
    rw [commit_st]
    unfold playTrackHandler
    simp [htok]

/-- C18: for every state, track `T` and queue `Q`, `playTrack(T, Q)` whose resume
lookup fails with an error runs to its end (the error is caught) and leaves the
engine exactly as it does when the lookup succeeds without a saved position
(position not above 0, or `success` false): `currentTrack` is `T`, `queue` and
`currentIndex` are those `playTrack` set, and `isPlaying` is true. -/
theorem playTrack_lookup_error_harmless (e : Engine) (T : Track) (Q : List Track) :
    (playTrackComplete T Q LookupResult.error e).st.isPlaying = true ∧
    (playTrackComplete T Q LookupResult.error e).st.currentTrack = some T ∧
    (playTrackComplete T Q LookupResult.error e).st.queue = (if Q = [] then [T] else Q) ∧
    (playTrackComplete T Q LookupResult.error e).st.currentIndex =
      (playTrack T Q e).st.currentIndex ∧
    (∀ p : ℚ, p ≤ 0 →
      playTrackComplete T Q (LookupResult.ok true p) e =
        playTrackComplete T Q LookupResult.error e) ∧
    (∀ p : ℚ,
      playTrackComplete T Q (LookupResult.ok false p) e =
        playTrackComplete T Q LookupResult.error e) := by
  have heq : ∀ r : LookupResult, (∀ p, r = LookupResult.ok true p → p ≤ 0) →
      playTrackComplete T Q r e = playTrackComplete T Q LookupResult.error e := by
    intro r hr
    unfold playTrackComplete
    by_cases htok : tokenTruthy e.token = true
    · simp only [htok, if_true]
      unfold resumeResponse
      rw [resumeResponseHandler_nopos_eq _ _ r hr]
    · rw [if_neg htok, if_neg htok]
  obtain ⟨h1, h2, -⟩ := playTrack_st T Q e
  have hnav : (playTrackComplete T Q LookupResult.error e).st.currentTrack = some T ∧
      (playTrackComplete T Q LookupResult.error e).st.queue = (playTrack T Q e).st.queue ∧
      (playTrackComplete T Q LookupResult.error e).st.currentIndex =
        (playTrack T Q e).st.currentIndex := by
    unfold playTrackComplete
    by_cases htok : tokenTruthy e.token = true
    · simp only [htok, if_true]
      obtain ⟨g1, g2, g3⟩ :=
        resumeResponse_st ((playTrack T Q e).pendingLookups.length - 1) LookupResult.error
          (playTrack T Q e)
      exact ⟨g1.trans h1, g2, g3⟩
    · simp only [htok]
      exact ⟨h1, rfl, rfl⟩
  refine ⟨playTrackComplete_isPlaying T Q _ e, hnav.1, ?_, hnav.2.2, ?_, ?_⟩
  · rw [hnav.2.1, h2]
    cases Q <;> simp
  · intro p hp
    exact heq _ (fun q hq => by cases hq; exact hp)
  · intro p
    exact heq _ (fun q hq => by cases hq)

/-- Witness for C18: `playTrack(B, [A, B, C])` for an authenticated caller whose
lookup is rejected. -/
theorem playTrack_lookup_error_harmless_witness :
    (playTrackComplete trackB [trackA, trackB, trackC] LookupResult.error
      (init (some "tok"))).st.isPlaying = true ∧
    (playTrackComplete trackB [trackA, trackB, trackC] LookupResult.error
      (init (some "tok"))).st.currentIndex = 1 ∧
    playTrackComplete trackB [trackA, trackB, trackC] (LookupResult.ok true 0)
      (init (some "tok")) =
      playTrackComplete trackB [trackA, trackB, trackC] LookupResult.error
        (init (some "tok")) :=
  have h := playTrack_lookup_error_harmless (init (some "tok")) trackB [trackA, trackB, trackC]
  ⟨h.1, h.2.2.2.1.trans (by decide), h.2.2.2.2.1 0 (le_refl 0)⟩

/-- C19: in every state of the engine with a token stored, for every track `T`,
queue `Q` and saved position `p > 0` returned for the lookup of `playTrack(T,
Q)` while `T` is current: `resumePosition` becomes `p`, and when the 500 ms
delay has elapsed the sink is commanded to seek to `p` and `currentTime`
becomes `p`.  When the returned position is 0, no seek is scheduled and no seek
command is sent. -/
theorem playTrack_resumes_saved_position (e : Engine) (hr : Reachable e)
    (htok : tokenTruthy e.token = true) (T : Track) (Q : List Track) (p : ℚ) (hp : 0 < p) :
    (playTrackComplete T Q (LookupResult.ok true p) e).st.currentTrack = some T ∧
    (playTrackComplete T Q (LookupResult.ok true p) e).st.resumePosition = p ∧
    (playTrackComplete T Q (LookupResult.ok true p) e).pendingSeeks = e.pendingSeeks ++ [p] ∧
    (resumeSeekFire e.pendingSeeks.length
      (playTrackComplete T Q (LookupResult.ok true p) e)).st.currentTime = p ∧
    (resumeSeekFire e.pendingSeeks.length
      (playTrackComplete T Q (LookupResult.ok true p) e)).cmds =
      (playTrackComplete T Q (LookupResult.ok true p) e).cmds ++ [SinkCmd.seek p] ∧
    (resumeSeekFire e.pendingSeeks.length
      (playTrackComplete T Q (LookupResult.ok true p) e)).st.currentTrack = some T ∧
    (playTrackComplete T Q (LookupResult.ok true 0) e).pendingSeeks = e.pendingSeeks ∧
    (∀ t : ℚ, SinkCmd.seek t ∈ (playTrackComplete T Q (LookupResult.ok true 0) e).cmds →
      SinkCmd.seek t ∈ e.cmds) := by
  obtain ⟨hl, hs, -⟩ := playTrack_pendingLookups T Q e htok
  obtain ⟨h1, -, -⟩ := playTrack_st T Q e
  obtain ⟨hc, hk⟩ := playTrackComplete_of_token T Q (LookupResult.ok true p) e htok
  obtain ⟨hc0, hk0⟩ := playTrackComplete_of_token T Q (LookupResult.ok true 0) e htok
  obtain ⟨hst, hseeks⟩ := resumeResponse_pos _ (playTrack T Q e) p hk hp
  rw [hs] at hseeks
  have hr2 : Reachable (playTrackComplete T Q (LookupResult.ok true p) e) := by
    obtain ⟨token, evs, rfl⟩ := hr
    refine ⟨token, evs ++ [Event.playTrack T Q,
      Event.resumeResponse (run (init token) evs).pendingLookups.length
        (LookupResult.ok true p)], ?_⟩
    rw [hc]
    simp [run, List.foldl_append, step]
  obtain ⟨a, ha⟩ := reachable_audio _ hr2
  have hget : (playTrackComplete T Q (LookupResult.ok true p) e).pendingSeeks[
      e.pendingSeeks.length]? = some p := by
    rw [hc, hseeks]
    simp
  have hfire := resumeSeekFire_of _ _ p a hget ha
  have htrack : (playTrackComplete T Q (LookupResult.ok true p) e).st.currentTrack = some T := by
    rw [hc, hst]
    exact h1
  refine ⟨htrack, ?_, ?_, ?_, ?_, ?_, ?_, ?_⟩
  · rw [hc, hst]
  · rw [hc, hseeks]
  · rw [hfire]
  · rw [hfire]
  · rw [hfire]
    exact htrack
  · rw [hc0, (resumeResponse_nopos _ (playTrack T Q e) _ hk0
      (fun q hq => by cases hq; exact le_refl 0)).2.1, hs]
  · intro t ht
    rw [hc0] at ht
    unfold resumeResponse at ht
    rw [commit_seek_mem, (resumeResponse_nopos _ (playTrack T Q e) _ hk0
      (fun q hq => by cases hq; exact le_refl 0)).2.2] at ht
    have ht2 : SinkCmd.seek t ∈ (playTrack T Q e).cmds := ht
    unfold playTrack at ht2
    rw [commit_seek_mem] at ht2
    unfold playTrackHandler at ht2
    simpa [htok] using ht2

/-- Witness for C19: A was saved at 30 s; `playTrack(A)` for an authenticated
caller records it and, after the delay, seeks the sink to 30. -/
theorem playTrack_resumes_saved_position_witness :
    Reachable (init (some "tok")) ∧
    (playTrackComplete trackA [] (LookupResult.ok true 30)
      (init (some "tok"))).st.resumePosition = 30 ∧
    (resumeSeekFire 0 (playTrackComplete trackA [] (LookupResult.ok true 30)
      (init (some "tok")))).st.currentTime = 30 ∧
    (resumeSeekFire 0 (playTrackComplete trackA [] (LookupResult.ok true 30)
      (init (some "tok")))).cmds =
      [SinkCmd.pause, SinkCmd.setVolume 1, SinkCmd.pause, SinkCmd.play, SinkCmd.seek 30] :=
  have hr : Reachable (init (some "tok")) := ⟨some "tok", [], rfl⟩
  have h := playTrack_resumes_saved_position (init (some "tok")) hr (by decide) trackA []
    30 (by decide)
  ⟨hr, h.2.1, h.2.2.2.1, by decide⟩

/-! ## A rejected play command -/

/-- C20 as stated fails: `playTrack(A)` makes `isPlaying` true and the sink is
commanded to play; when the sink rejects that command, `isPlaying` is still
true. -/
theorem play_rejected_still_playing :
    (playTrack trackA [] (init none)).cmds =
      [SinkCmd.pause, SinkCmd.setVolume 1, SinkCmd.play] ∧
    (playRejected (playTrack trackA [] (init none))).st.isPlaying = true := by
  decide

/-- C20, amended: in every state of the engine in which `isPlaying` is false,
`togglePlayPause()` makes it true and commands the sink to play; when the sink
rejects the command, handling the rejection returns normally and changes
nothing: `isPlaying` stays true. -/
theorem play_rejection_leaves_state (e : Engine) (hr : Reachable e)
    (hp : e.st.isPlaying = false) :
    (togglePlayPause e).st.isPlaying = true ∧
    (togglePlayPause e).cmds = e.cmds ++ [SinkCmd.play] ∧
    (playRejected (togglePlayPause e)).st.isPlaying = true ∧
    playRejected (togglePlayPause e) = togglePlayPause e := by
  obtain ⟨a, ha⟩ := reachable_audio e hr
  have h1 : (togglePlayPause e).st.isPlaying = true := by
    unfold togglePlayPause
    rw [commit_st]
    simp [togglePlayPauseHandler, hp]
  refine ⟨h1, ?_, h1, rfl⟩
  unfold togglePlayPause commit
  have ha2 : (togglePlayPauseHandler e).audio = some a := ha
  rw [ha2]
  simp [togglePlayPauseHandler, hp]

/-- Witness for C20 amended: the first toggle in the initial state. -/
theorem play_rejection_leaves_state_witness :
    Reachable (init none) ∧
    (playRejected (togglePlayPause (init none))).st.isPlaying = true :=
  have hr : Reachable (init none) := ⟨none, [], rfl⟩
  ⟨hr, (play_rejection_leaves_state (init none) hr rfl).2.2.1⟩

/-! ## changeVolume -/

theorem commit_volume_synced (prev : PlayerState) (e : Engine) (a : Audio)
    (ha : e.audio = some a) (hv : a.volume = prev.volume) :
    ∃ a2, (commit prev e).audio = some a2 ∧ a2.volume = (commit prev e).st.volume := by
  rw [commit_st]
  unfold commit
  rw [ha]
  by_cases hc : prev.volume = e.st.volume
  · refine ⟨a, ?_, hv.trans hc⟩
    simp [hc]
  · refine ⟨{ a with volume := e.st.volume }, ?_, rfl⟩
    simp [hc]

theorem step_volume_synced (e : Engine) (ev : Event)
    (h : ∃ a, e.audio = some a ∧ a.volume = e.st.volume) :
    ∃ a, (step e ev).audio = some a ∧ a.volume = (step e ev).st.volume := by
  obtain ⟨a, ha, hv⟩ := h
  cases ev with
  | playTrack track tracks =>
    have h2 := commit_volume_synced e.st (playTrackHandler track tracks e) a
      ((playTrackHandler_audio track tracks e).trans ha) hv
    exact h2
  | resumeResponse k r =>
    have haud : (resumeResponseHandler k r e).audio = some a := by
      unfold resumeResponseHandler
      by_cases hk : k < e.pendingLookups.length
      · rcases r with _ | ⟨_ | _, position⟩
        · simp [hk, ha]
        · simp [hk, ha]
        · by_cases hp : position > 0 <;> simp [hk, hp, ha]
      · simp [hk, ha]
    exact commit_volume_synced e.st _ a haud hv
  | resumeSeekFire k =>
    have haud : ∃ a2, (resumeSeekFireHandler k e).audio = some a2 ∧ a2.volume = a.volume := by
      unfold resumeSeekFireHandler
      cases e.pendingSeeks[k]? with
      | none => exact ⟨a, ha, rfl⟩
      | some p => simp [ha]
    obtain ⟨a2, ha2, hv2⟩ := haud
    exact commit_volume_synced e.st _ a2 ha2 (hv2.trans hv)
  | togglePlayPause => exact commit_volume_synced e.st (togglePlayPauseHandler e) a ha hv
  | playNext => exact commit_volume_synced e.st (playNextHandler e) a ha hv
  | playPrevious =>
    have haud : ∃ a2, (playPreviousHandler e).audio = some a2 ∧ a2.volume = a.volume := by
      unfold playPreviousHandler
      by_cases ht : e.st.currentTime > 3
      · simp [ht, ha]
      · by_cases hc : e.st.currentIndex > 0 <;> simp [ht, hc, ha]
    obtain ⟨a2, ha2, hv2⟩ := haud
    exact commit_volume_synced e.st _ a2 ha2 (hv2.trans hv)
  | seek time =>
    have haud : ∃ a2, (seekHandler time e).audio = some a2 ∧ a2.volume = a.volume := by
      unfold seekHandler
      simp [ha]
    obtain ⟨a2, ha2, hv2⟩ := haud
    exact commit_volume_synced e.st _ a2 ha2 (hv2.trans hv)
  | changeVolume v => exact commit_volume_synced e.st (changeVolumeHandler v e) a ha hv
  | timeProgressed t =>
    have haud : ∃ a2, (updateTime t e).audio = some a2 ∧ a2.volume = a.volume := by
      unfold updateTime
      simp [ha]
    obtain ⟨a2, ha2, hv2⟩ := haud
    exact commit_volume_synced e.st _ a2 ha2 (hv2.trans hv)
  | metadataLoaded d =>
    have haud : ∃ a2, (updateDuration d e).audio = some a2 ∧ a2.volume = a.volume := by
      unfold updateDuration
      simp [ha]
    obtain ⟨a2, ha2, hv2⟩ := haud
    exact commit_volume_synced e.st _ a2 ha2 (hv2.trans hv)
  | ended =>
    have haud : (handleEnded e).audio = some a := by
      unfold handleEnded
      rw [ha]
      by_cases hc : e.st.currentIndex < (e.st.queue.length : Int) - 1
      · simp [hc, ha]
      · simp only [hc, if_false]
        unfold savePlaybackPosition
        cases e.st.currentTrack with
        | none => simp [ha]
        | some t => by_cases ht : tokenTruthy e.token = true <;> simp [ht, ha]
    exact commit_volume_synced e.st _ a haud hv
  | saveTimerFire =>
    show ∃ a2, (saveTimerFire e).audio = some a2 ∧ a2.volume = (saveTimerFire e).st.volume
    unfold saveTimerFire
    cases e.pendingSave with
    | none => exact ⟨a, ha, hv⟩
    | some tc =>
      obtain ⟨t, c⟩ := tc
      simp only [savePlaybackPosition_st]
      refine ⟨a, ?_, hv⟩
      unfold savePlaybackPosition
      cases c with
      | none => exact ha
      | some tr => by_cases ht : tokenTruthy e.token = true <;> simp [ht, ha]
  | setToken token => exact ⟨a, ha, hv⟩
  | playRejected => exact ⟨a, ha, hv⟩

theorem reachable_volume_synced (e : Engine) (hr : Reachable e) :
    ∃ a, e.audio = some a ∧ a.volume = e.st.volume := by
  obtain ⟨token, evs, rfl⟩ := hr
  have key : ∀ (evs : List Event) (e : Engine),
      (∃ a, e.audio = some a ∧ a.volume = e.st.volume) →
      ∃ a, (run e evs).audio = some a ∧ a.volume = (run e evs).st.volume := by
    intro evs
    induction evs with
    | nil => intro e h; exact h
    | cons ev evs ih => intro e h; exact ih (step e ev) (step_volume_synced e ev h)
  exact key evs (init token) ⟨{}, rfl, rfl⟩

/-- C21: in every state of the engine and for every `v` with `0 <= v <= 1`,
after `changeVolume(v)` the volume of the state is `v`, every other field of
the playback state is what it was, and once the state is applied the volume of
the sink is `v`; the sink is sent `setVolume v` exactly when `v` differs from
the previous volume. -/
theorem changeVolume_sets_volume (e : Engine) (hr : Reachable e) (v : ℚ) (_h0 : 0 ≤ v)
    (_h1 : v ≤ 1) :
    (changeVolume v e).st = { e.st with volume := v } ∧
    (changeVolumeHandler v e).st.volume = v ∧
    (∃ a, (changeVolume v e).audio = some a ∧ a.volume = v) ∧
    (changeVolume v e).cmds =
      e.cmds ++ (if e.st.volume = v then [] else [SinkCmd.setVolume v]) := by
  have hst : (changeVolume v e).st = { e.st with volume := v } := by
    unfold changeVolume
    rw [commit_st]
    rfl
  obtain ⟨a, ha, hv⟩ := reachable_volume_synced e hr
  obtain ⟨a2, ha2, hv2⟩ := commit_volume_synced e.st (changeVolumeHandler v e) a ha hv
  refine ⟨hst, rfl, ⟨a2, ha2, hv2.trans (by rw [commit_st]; rfl)⟩, ?_⟩
  unfold changeVolume commit
  have ha3 : (changeVolumeHandler v e).audio = some a := ha
  rw [ha3]
  by_cases hc : e.st.volume = v <;> simp [changeVolumeHandler, hc]

/-- Witness for C21: `changeVolume(1/2)` in the initial state. -/
theorem changeVolume_sets_volume_witness :
    Reachable (init none) ∧
    (changeVolume (1 / 2) (init none)).st.volume = 1 / 2 ∧
    ∃ a, (changeVolume (1 / 2) (init none)).audio = some a ∧ a.volume = 1 / 2 :=
  have hr : Reachable (init none) := ⟨none, [], rfl⟩
  have h := changeVolume_sets_volume (init none) hr (1 / 2) (by norm_num) (by norm_num)
  ⟨hr, by rw [h.1], h.2.2.1⟩

/-! ## What is sent to the history collaborator -/

/-- C22: for every track with a defined id (`id || _id` neither undefined nor
null) and every position `p`, the request `savePlaybackPosition` builds for an
authenticated caller carries position `p` and exactly one non-null identity:
`podcastId` is the id and `trackId` is null when the track has a `host` field,
`trackId` is the id and `podcastId` is null otherwise. -/
theorem save_request_identity (e : Engine) (t : Track) (p : ℚ)
    (htok : tokenTruthy e.token = true) (_hdef : t.trackId ≠ JSVal.undefined)
    (hnn : t.trackId ≠ JSVal.null) :
    ∃ trackId podcastId,
      (savePlaybackPosition (some t) p e).requests =
        e.requests ++ [HistoryReq.save trackId podcastId p] ∧
      (t.host ≠ JSVal.undefined → trackId = JSVal.null ∧ podcastId = t.trackId) ∧
      (t.host = JSVal.undefined → trackId = t.trackId ∧ podcastId = JSVal.null) ∧
      ((trackId = JSVal.null ∧ podcastId ≠ JSVal.null) ∨
        (trackId ≠ JSVal.null ∧ podcastId = JSVal.null)) := by
  by_cases hh : t.host = JSVal.undefined
  · refine ⟨t.trackId, JSVal.null, ?_, fun h => absurd hh h, fun _ => ⟨rfl, rfl⟩,
      Or.inr ⟨hnn, rfl⟩⟩
    simp [savePlaybackPosition, htok, hh]
  · refine ⟨JSVal.null, t.trackId, ?_, fun _ => ⟨rfl, rfl⟩, fun h => absurd h hh,
      Or.inl ⟨rfl, hnn⟩⟩
    simp [savePlaybackPosition, htok, hh]

/-- Witness for C22: a song and a podcast record, saved at 12 s. -/
theorem save_request_identity_witness :
    (savePlaybackPosition (some trackA) 12 (init (some "tok"))).requests =
      [HistoryReq.save (JSVal.str "A") JSVal.null 12] ∧
    (savePlaybackPosition (some podcastP) 12 (init (some "tok"))).requests =
      [HistoryReq.save JSVal.null (JSVal.str "P") 12] ∧
    ∃ trackId podcastId,
      (savePlaybackPosition (some podcastP) 12 (init (some "tok"))).requests =
        (init (some "tok")).requests ++ [HistoryReq.save trackId podcastId 12] :=
  have h := save_request_identity (init (some "tok")) podcastP 12 (by decide) (by decide)
    (by decide)
  ⟨by decide, by decide, h.elim (fun a hb => hb.elim (fun b hab => ⟨a, b, hab.1⟩))⟩

/-- C23 (the code at the failing input): the track object `handlePlay` builds
from the podcast record `{id: "P", host: "H", audio_url: "p.mp3"}` has no `host`
field, so its position is saved with `trackId = "P"` and `podcastId = null`,
through `PodcastDetail.handlePlay`, `RecentlyPlayed.handlePlay` and
`RecentlyPlayed.handleResume` alike; the same record passed to `playTrack`
as it is (as `SongCard` does) is saved with `podcastId = "P"`. -/
theorem podcast_track_format_saved_as_track :
    (trackFormat podcastP).host = JSVal.undefined ∧
    (saveTimerFire (timeProgressed 12 (resumeResponse 0 LookupResult.error
      (PodcastDetail.handlePlay (some podcastP) (init (some "tok")))))).requests =
      [HistoryReq.resume (JSVal.str "P"), HistoryReq.save (JSVal.str "P") JSVal.null 12] ∧
    (saveTimerFire (timeProgressed 12 (resumeResponse 0 LookupResult.error
      (RecentlyPlayed.handlePlay (some podcastP) (init (some "tok")))))).requests =
      [HistoryReq.resume (JSVal.str "P"), HistoryReq.save (JSVal.str "P") JSVal.null 12] ∧
    (saveTimerFire (timeProgressed 12 (resumeResponse 0 LookupResult.error
      (RecentlyPlayed.handleResume (some podcastP) 30 (init (some "tok")))))).requests =
      [HistoryReq.resume (JSVal.str "P"), HistoryReq.save (JSVal.str "P") JSVal.null 12] ∧
    (saveTimerFire (timeProgressed 12 (resumeResponse 0 LookupResult.error
      (playTrack podcastP [] (init (some "tok")))))).requests =
      [HistoryReq.resume (JSVal.str "P"), HistoryReq.save JSVal.null (JSVal.str "P") 12] := by
  decide

theorem trackFormat_never_podcast (content : Track) (p : ℚ) (e : Engine) :
    (trackFormat content).host = JSVal.undefined ∧
    ∀ r ∈ (savePlaybackPosition (some (trackFormat content)) p e).requests,
      r ∈ e.requests ∨ r = HistoryReq.save (trackFormat content).trackId JSVal.null p := by
  refine ⟨rfl, ?_⟩
  intro r hr
  unfold savePlaybackPosition at hr
  by_cases htok : tokenTruthy e.token = true
  · simp only [htok, if_true] at hr
    rcases List.mem_append.mp hr with h | h
    · exact Or.inl h
    · right
      have hh : (trackFormat content).host = JSVal.undefined := rfl
      simpa [hh] using h
  · simp only [htok] at hr
    exact Or.inl hr

/-! ## The unauthenticated caller -/

theorem savePlaybackPosition_no_token (captured : Option Track) (position : ℚ) (e : Engine)
    (hno : tokenTruthy e.token = false) : savePlaybackPosition captured position e = e := by
  unfold savePlaybackPosition
  cases captured with
  | none => rfl
  | some t => simp [hno]

theorem step_no_token (e : Engine) (ev : Event) (hno : tokenTruthy e.token = false)
    (hev : ∀ token, ev ≠ Event.setToken token) :
    (step e ev).requests = e.requests ∧ (step e ev).token = e.token := by
  cases ev with
  | playTrack track tracks =>
    simp only [step, playTrack, commit_requests, commit_token]
    unfold playTrackHandler
    simp [hno]
  | resumeResponse k r =>
    simp only [step, resumeResponse, commit_requests, commit_token]
    unfold resumeResponseHandler
    by_cases hk : k < e.pendingLookups.length
    · rcases r with _ | ⟨_ | _, position⟩
      · simp [hk]
      · simp [hk]
      · by_cases hp : position > 0 <;> simp [hk, hp]
    · simp [hk]
  | resumeSeekFire k =>
    simp only [step, resumeSeekFire, commit_requests, commit_token]
    unfold resumeSeekFireHandler
    cases e.pendingSeeks[k]? with
    | none => exact ⟨rfl, rfl⟩
    | some p => cases e.audio <;> exact ⟨rfl, rfl⟩
  | togglePlayPause =>
    simp only [step, togglePlayPause, commit_requests, commit_token]
    exact ⟨rfl, rfl⟩
  | playNext =>
    simp only [step, playNext, commit_requests, commit_token]
    exact ⟨rfl, rfl⟩
  | playPrevious =>
    simp only [step, playPrevious, commit_requests, commit_token]
    unfold playPreviousHandler
    by_cases ht : e.st.currentTime > 3
    · simp only [ht, if_true]
      cases e.audio <;> exact ⟨rfl, rfl⟩
    · by_cases hc : e.st.currentIndex > 0 <;> simp [ht, hc]
  | seek time =>
    simp only [step, seek, commit_requests, commit_token]
    unfold seekHandler
    cases e.audio <;> exact ⟨rfl, rfl⟩
  | changeVolume v =>
    simp only [step, changeVolume, commit_requests, commit_token]
    exact ⟨rfl, rfl⟩
  | timeProgressed t =>
    simp only [step, timeProgressed, commit_requests, commit_token]
    unfold updateTime
    cases e.audio <;> exact ⟨rfl, rfl⟩
  | metadataLoaded d =>
    simp only [step, metadataLoaded, commit_requests, commit_token]
    unfold updateDuration
    cases e.audio <;> exact ⟨rfl, rfl⟩
  | ended =>
    simp only [step, ended, commit_requests, commit_token]
    unfold handleEnded
    cases e.audio with
    | none => exact ⟨rfl, rfl⟩
    | some a =>
      by_cases hc : e.st.currentIndex < (e.st.queue.length : Int) - 1
      · simp [hc]
      · simp only [hc, if_false]
        unfold savePlaybackPosition
        cases e.st.currentTrack <;> simp [hno]
  | saveTimerFire =>
    simp only [step, saveTimerFire]
    cases e.pendingSave with
    | none => exact ⟨rfl, rfl⟩
    | some tc =>
      obtain ⟨t, c⟩ := tc
      simp only
      unfold savePlaybackPosition
      cases c <;> simp [hno]
  | setToken token => exact absurd rfl (hev token)
  | playRejected => exact ⟨rfl, rfl⟩

theorem run_no_token (evs : List Event) (e : Engine) (hno : tokenTruthy e.token = false)
    (hev : ∀ ev ∈ evs, ∀ token, ev ≠ Event.setToken token) :
    (run e evs).requests = e.requests := by
  induction evs generalizing e with
  | nil => rfl
  | cons ev evs ih =>
    obtain ⟨h1, h2⟩ := step_no_token e ev hno (hev ev (List.mem_cons_self _ _))
    have h3 := ih (step e ev) (by rw [h2]; exact hno)
      (fun x hx => hev x (List.mem_cons_of_mem _ hx))
    exact h3.trans h1

/-- C24: while no token is stored, the engine sends nothing to the history
collaborator: `playTrack` issues no resume lookup (and still sets `isPlaying`
to true at once), the debounce timer and the `ended` handler issue no save,
and no sequence of operations and notifications issues any request. -/
theorem unauthenticated_no_requests (e : Engine) (hno : tokenTruthy e.token = false) :
    (∀ (T : Track) (Q : List Track),
      (playTrack T Q e).requests = e.requests ∧
      (playTrack T Q e).pendingLookups = e.pendingLookups ∧
      (playTrack T Q e).st.isPlaying = true) ∧
    (saveTimerFire e).requests = e.requests ∧
    (ended e).requests = e.requests ∧
    (∀ evs : List Event, (∀ ev ∈ evs, ∀ token, ev ≠ Event.setToken token) →
      (run e evs).requests = e.requests) := by
  refine ⟨?_, ?_, ?_, fun evs hev => run_no_token evs e hno hev⟩
  · intro T Q
    refine ⟨(step_no_token e (Event.playTrack T Q) hno (fun _ h => Event.noConfusion h)).1,
      ?_, ?_⟩
    · unfold playTrack
      rw [commit_pendingLookups]
      unfold playTrackHandler
      simp [hno]
    · unfold playTrack
      rw [commit_st]
      unfold playTrackHandler
      simp [hno]
  · exact (step_no_token e Event.saveTimerFire hno (fun _ h => Event.noConfusion h)).1
  · exact (step_no_token e Event.ended hno (fun _ h => Event.noConfusion h)).1

/-- Witness for C24: without a token, play A, let the sink report progress, let
the timer fire and the track end: nothing was requested, and A was playing. -/
theorem unauthenticated_no_requests_witness :
    tokenTruthy (init none).token = false ∧
    (playTrack trackA [] (init none)).st.isPlaying = true ∧
    (run (init none)
      [Event.playTrack trackA [], Event.timeProgressed 12, Event.saveTimerFire,
        Event.ended]).requests = [] :=
  have h := unauthenticated_no_requests (init none) rfl
  ⟨rfl, (h.1 trackA []).2.2,
    h.2.2.2 _ (fun ev hev token heq => by
      subst heq
      revert hev
      simp)⟩

/-! ## getBestQualityUrl -/

theorem rankOf_le (x : DownloadUrl) : rankOf x ≤ 3 := by
  unfold rankOf qualityOrder
  split_ifs <;> simp

theorem rankOf_eq_three (x : DownloadUrl) : rankOf x = 3 ↔ x.quality = "320kbps" := by
  unfold rankOf qualityOrder
  by_cases h3 : x.quality = "320kbps"
  · simp [h3]
  · by_cases h2 : x.quality = "160kbps"
    · simp [h2]
    · by_cases h1 : x.quality = "96kbps"
      · simp [h1]
      · by_cases hin : x.quality ∈ objectPrototypeMembers <;> simp [h3, h2, h1, hin]

theorem rankOf_eq_two (x : DownloadUrl) : rankOf x = 2 ↔ x.quality = "160kbps" := by
  unfold rankOf qualityOrder
  by_cases h3 : x.quality = "320kbps"
  · simp [h3]
  · by_cases h2 : x.quality = "160kbps"
    · simp [h2]
    · by_cases h1 : x.quality = "96kbps"
      · simp [h1]
      · by_cases hin : x.quality ∈ objectPrototypeMembers <;> simp [h3, h2, h1, hin]

theorem rankOf_eq_one (x : DownloadUrl) : rankOf x = 1 ↔ x.quality = "96kbps" := by
  unfold rankOf qualityOrder
  by_cases h3 : x.quality = "320kbps"
  · simp [h3]
  · by_cases h2 : x.quality = "160kbps"
    · simp [h2]
    · by_cases h1 : x.quality = "96kbps"
      · simp [h1]
      · by_cases hin : x.quality ∈ objectPrototypeMembers <;> simp [h3, h2, h1, hin]

theorem qualityOrder_of_not_inherited (x : DownloadUrl)
    (h : x.quality ∉ objectPrototypeMembers) :
    qualityOrder x.quality = QualityRank.num (rankOf x) := by
  unfold rankOf qualityOrder
  by_cases h3 : x.quality = "320kbps"
  · simp [h3]
  · by_cases h2 : x.quality = "160kbps"
    · simp [h2]
    · by_cases h1 : x.quality = "96kbps"
      · simp [h1]
      · simp [h3, h2, h1, h]

theorem compareQuality_of_not_inherited (a b : DownloadUrl)
    (ha : a.quality ∉ objectPrototypeMembers) (hb : b.quality ∉ objectPrototypeMembers) :
    compareQuality a b ≤ 0 ↔ rankOf b ≤ rankOf a := by
  unfold compareQuality
  rw [qualityOrder_of_not_inherited a ha, qualityOrder_of_not_inherited b hb]
  simp only
  omega

theorem orderedInsert_congr (r1 r2 : DownloadUrl → DownloadUrl → Prop) [DecidableRel r1]
    [DecidableRel r2] (a : DownloadUrl) (l : List DownloadUrl)
    (h : ∀ b ∈ l, (r1 a b ↔ r2 a b)) :
    List.orderedInsert r1 a l = List.orderedInsert r2 a l := by
  induction l with
  | nil => rfl
  | cons b l ih =>
    have hb := h b (List.mem_cons_self _ _)
    have hl := ih (fun c hc => h c (List.mem_cons_of_mem _ hc))
    by_cases hr : r1 a b
    · have hr2 : r2 a b := hb.mp hr
      simp [List.orderedInsert, hr, hr2]
    · have hr2 : ¬ r2 a b := fun h2 => hr (hb.mpr h2)
      simp [List.orderedInsert, hr, hr2, hl]

theorem insertionSort_congr (r1 r2 : DownloadUrl → DownloadUrl → Prop) [DecidableRel r1]
    [DecidableRel r2] (l : List DownloadUrl)
    (h : ∀ a ∈ l, ∀ b ∈ l, (r1 a b ↔ r2 a b)) :
    List.insertionSort r1 l = List.insertionSort r2 l := by
  induction l with
  | nil => rfl
  | cons a l ih =>
    have hl := ih (fun x hx y hy =>
      h x (List.mem_cons_of_mem _ hx) y (List.mem_cons_of_mem _ hy))
    simp only [List.insertionSort]
    rw [hl]
    apply orderedInsert_congr
    intro b hb
    have hb2 : b ∈ l := (List.mem_insertionSort r2).mp hb
    exact h a (List.mem_cons_self _ _) b (List.mem_cons_of_mem _ hb2)

theorem sortByQuality_head (ds : List DownloadUrl) (hne : ds ≠ [])
    (hnum : ∀ x ∈ ds, x.quality ∉ objectPrototypeMembers) :
    ∃ best rest, sortByQuality ds = best :: rest ∧ best ∈ ds ∧
      ∀ x ∈ ds, rankOf x ≤ rankOf best := by
  have hcongr : sortByQuality ds =
      ds.insertionSort (fun a b => rankOf b ≤ rankOf a) := by
    unfold sortByQuality
    apply insertionSort_congr
    intro a ha b hb
    exact compareQuality_of_not_inherited a b (hnum a ha) (hnum b hb)
  have hperm : (sortByQuality ds).Perm ds := List.perm_insertionSort _ ds
  have hsorted : List.Sorted (fun a b : DownloadUrl => rankOf b ≤ rankOf a)
      (sortByQuality ds) := by
    rw [hcongr]
    exact @List.sorted_insertionSort DownloadUrl (fun a b => rankOf b ≤ rankOf a) _
      ⟨fun a b => Nat.le_total (rankOf b) (rankOf a)⟩
      ⟨fun _ _ _ hab hbc => Nat.le_trans hbc hab⟩ ds
  cases hs : sortByQuality ds with
  | nil =>
    rw [hs] at hperm
    exact absurd hperm.symm.eq_nil hne
  | cons best rest =>
    rw [hs] at hperm hsorted
    refine ⟨best, rest, rfl, hperm.subset (List.mem_cons_self _ _), ?_⟩
    intro x hx
    have hx2 : x ∈ best :: rest := hperm.symm.subset hx
    rcases List.mem_cons.mp hx2 with rfl | hmem
    · exact le_refl _
    · exact List.rel_of_sorted_cons hsorted x hmem

theorem getBestQualityUrl_best (ds : List DownloadUrl) (hne : ds ≠ [])
    (hnum : ∀ x ∈ ds, x.quality ∉ objectPrototypeMembers) :
    ∃ d ∈ ds, getBestQualityUrl (some ds) = some d.url ∧
      (∀ x ∈ ds, rankOf x ≤ rankOf d) ∧
      ((∃ x ∈ ds, x.quality = "320kbps") → d.quality = "320kbps") ∧
      ((¬ ∃ x ∈ ds, x.quality = "320kbps") → (∃ x ∈ ds, x.quality = "160kbps") →
        d.quality = "160kbps") ∧
      ((¬ ∃ x ∈ ds, x.quality = "320kbps") → (¬ ∃ x ∈ ds, x.quality = "160kbps") →
        (∃ x ∈ ds, x.quality = "96kbps") → d.quality = "96kbps") := by
  obtain ⟨best, rest, hs, hmem, hmax⟩ := sortByQuality_head ds hne hnum
  have hret : getBestQualityUrl (some ds) = some best.url := by
    cases ds with
    | nil => exact absurd rfl hne
    | cons d ds =>
      unfold getBestQualityUrl
      simp only [hs]
  have hle := rankOf_le best
  refine ⟨best, hmem, hret, hmax, ?_, ?_, ?_⟩
  · rintro ⟨x, hx, hq⟩
    have h3 := hmax x hx
    rw [(rankOf_eq_three x).mpr hq] at h3
    exact (rankOf_eq_three best).mp (by omega)
  · rintro hno3 ⟨x, hx, hq⟩
    have h2 := hmax x hx
    rw [(rankOf_eq_two x).mpr hq] at h2
    have hn3 : rankOf best ≠ 3 := fun h =>
      hno3 ⟨best, hmem, (rankOf_eq_three best).mp h⟩
    exact (rankOf_eq_two best).mp (by omega)
  · rintro hno3 hno2 ⟨x, hx, hq⟩
    have h1 := hmax x hx
    rw [(rankOf_eq_one x).mpr hq] at h1
    have hn3 : rankOf best ≠ 3 := fun h =>
      hno3 ⟨best, hmem, (rankOf_eq_three best).mp h⟩
    have hn2 : rankOf best ≠ 2 := fun h =>
      hno2 ⟨best, hmem, (rankOf_eq_two best).mp h⟩
    exact (rankOf_eq_one best).mp (by omega)

theorem getBestQualityUrl_best_example :
    getBestQualityUrl (some [⟨"96kbps", "a"⟩, ⟨"320kbps", "b"⟩, ⟨"160kbps", "c"⟩,
      ⟨"320kbps", "d"⟩]) = some "b" ∧
    ∃ d ∈ [(⟨"96kbps", "a"⟩ : DownloadUrl), ⟨"320kbps", "b"⟩, ⟨"160kbps", "c"⟩,
        ⟨"320kbps", "d"⟩],
      getBestQualityUrl (some [⟨"96kbps", "a"⟩, ⟨"320kbps", "b"⟩, ⟨"160kbps", "c"⟩,
        ⟨"320kbps", "d"⟩]) = some d.url :=
  have h := getBestQualityUrl_best
    [⟨"96kbps", "a"⟩, ⟨"320kbps", "b"⟩, ⟨"160kbps", "c"⟩, ⟨"320kbps", "d"⟩] (by decide)
    (by decide)
  ⟨by decide, h.elim (fun d hd => ⟨d, hd.1, hd.2.1⟩)⟩

/-- C25 (the code at the failing input): for the entries
`[{quality: "constructor", url: "x"}, {quality: "320kbps", url: "y"}]` the
lookup `qualityOrder["constructor"]` finds the inherited constructor, the
comparator yields NaN, the order is kept, and the method as written returns
`"x"` although a 320kbps entry is present; with the 320kbps entry first it
returns `"y"`.  Called through the module as it is in the repository, nothing
is returned at all: `filePath` is declared twice in one block, so importing
the module is a SyntaxError. -/
theorem getBestQualityUrl_inherited_label :
    qualityOrder "constructor" = QualityRank.inherited ∧
    compareQuality ⟨"constructor", "x"⟩ ⟨"320kbps", "y"⟩ = 0 ∧
    compareQuality ⟨"320kbps", "y"⟩ ⟨"constructor", "x"⟩ = 0 ∧
    getBestQualityUrl (some [⟨"constructor", "x"⟩, ⟨"320kbps", "y"⟩]) = some "x" ∧
    getBestQualityUrl (some [⟨"320kbps", "y"⟩, ⟨"constructor", "x"⟩]) = some "y" ∧
    moduleParseError = some "filePath" ∧
    callGetBestQualityUrl (some [⟨"constructor", "x"⟩, ⟨"320kbps", "y"⟩]) =
      CallResult.parseError "filePath" ∧
    callGetBestQualityUrl (some [⟨"320kbps", "y"⟩]) = CallResult.parseError "filePath" := by
  decide

/-! ## Saving while the track plays on -/

theorem burst_issues_no_save (c : Clocked) (hr : Reachable c.eng) (n : Nat × ℚ)
    (ns : List (Nat × ℚ))
    (hgap : List.Chain (fun a b => b.1 < a.1 + saveDelay) n ns) :
    (notifyAll c (n :: ns)).eng.requests = (elapse n.1 c).eng.requests := by
  obtain ⟨a, ha⟩ := reachable_audio c.eng hr
  have hsome : c.eng.audio.isSome = true := by rw [ha]; rfl
  exact (armed_notifyAll (elapse n.1 c).eng ns n (timeProgressedAt n.1 n.2 c)
    (armed_first c n hsome) hgap).1

/-- C26 (the code at the failing input): A plays for an authenticated caller
and the sink reports progress once a second for twelve seconds; at the end of
that span no position-save has been issued at all, the only request is the
resume lookup of `playTrack`, and the timer is still pending. -/
theorem continuous_playback_issues_no_save :
    (notifyAll
      { eng := run (init (some "tok"))
          [Event.playTrack trackA [], Event.resumeResponse 0 LookupResult.error] }
      [(1000, 1), (2000, 2), (3000, 3), (4000, 4), (5000, 5), (6000, 6), (7000, 7),
        (8000, 8), (9000, 9), (10000, 10), (11000, 11), (12000, 12)]).eng.requests
      = [HistoryReq.resume (JSVal.str "A")] ∧
    (notifyAll
      { eng := run (init (some "tok"))
          [Event.playTrack trackA [], Event.resumeResponse 0 LookupResult.error] }
      [(1000, 1), (2000, 2), (3000, 3), (4000, 4), (5000, 5), (6000, 6), (7000, 7),
        (8000, 8), (9000, 9), (10000, 10), (11000, 11), (12000, 12)]).eng.pendingSave
      = some (12, some trackA) ∧
    (notifyAll
      { eng := run (init (some "tok"))
          [Event.playTrack trackA [], Event.resumeResponse 0 LookupResult.error] }
      [(1000, 1), (2000, 2), (3000, 3), (4000, 4), (5000, 5), (6000, 6), (7000, 7),
        (8000, 8), (9000, 9), (10000, 10), (11000, 11), (12000, 12)]).now = 12000 := by
  decide

/-! ## What playTrack leaves untouched -/

theorem playTrack_keeps_times (T : Track) (Q : List Track) (e : Engine) :
    (playTrack T Q e).st.resumePosition = e.st.resumePosition ∧
    (playTrack T Q e).st.currentTime = e.st.currentTime := by
  unfold playTrack
  rw [commit_st]
  unfold playTrackHandler
  by_cases htok : tokenTruthy e.token = true <;> simp [htok]

theorem playTrackComplete_currentTime (T : Track) (Q : List Track) (r : LookupResult)
    (e : Engine) : (playTrackComplete T Q r e).st.currentTime = e.st.currentTime := by
  obtain ⟨-, hct⟩ := playTrack_keeps_times T Q e
  by_cases htok : tokenTruthy e.token = true
  · obtain ⟨hc, hk⟩ := playTrackComplete_of_token T Q r e htok
    rw [hc]
    by_cases hpos : ∃ p, r = LookupResult.ok true p ∧ 0 < p
    · obtain ⟨p, rfl, hp⟩ := hpos
      rw [(resumeResponse_pos _ _ p hk hp).1]
      exact hct
    · rw [(resumeResponse_nopos _ _ r hk
        (fun p hrp => not_lt.mp (fun hp => hpos ⟨p, hrp, hp⟩))).1]
      exact hct
  · unfold playTrackComplete
    rw [if_neg htok]
    exact hct

/-- C27 as stated fails: A is resumed at its saved position 30; then
`playTrack(B)` completes with a failed lookup: B is current and
`resumePosition` is still 30, the position of A. -/
theorem resumePosition_carries_over :
    (playTrackComplete trackB [] LookupResult.error
      (playTrackComplete trackA [] (LookupResult.ok true 30)
        (init (some "tok")))).st.currentTrack = some trackB ∧
    (playTrackComplete trackB [] LookupResult.error
      (playTrackComplete trackA [] (LookupResult.ok true 30)
        (init (some "tok")))).st.resumePosition = 30 := by
  decide

/-- C27, amended: after `playTrack(T, Q)` has completed from any prior state,
`resumePosition` is the saved position returned for the lookup when that is
above 0 (for an authenticated caller), and otherwise, when the lookup returned
no position above 0, failed, or was skipped for want of a token, it is what it
was before the call. -/
theorem playTrack_resumePosition (e : Engine) (T : Track) (Q : List Track)
    (r : LookupResult) :
    (∀ p : ℚ, 0 < p → tokenTruthy e.token = true → r = LookupResult.ok true p →
      (playTrackComplete T Q r e).st.resumePosition = p) ∧
    ((tokenTruthy e.token = false ∨ ∀ p, r = LookupResult.ok true p → p ≤ 0) →
      (playTrackComplete T Q r e).st.resumePosition = e.st.resumePosition) := by
  obtain ⟨hrp, -⟩ := playTrack_keeps_times T Q e
  constructor
  · intro p hp htok hr
    subst hr
    obtain ⟨hc, hk⟩ := playTrackComplete_of_token T Q (LookupResult.ok true p) e htok
    rw [hc, (resumeResponse_pos _ _ p hk hp).1]
  · intro h
    by_cases htok : tokenTruthy e.token = true
    · rcases h with hno | hnp
      · rw [hno] at htok
        exact absurd htok (by decide)
      · obtain ⟨hc, hk⟩ := playTrackComplete_of_token T Q r e htok
        rw [hc, (resumeResponse_nopos _ _ r hk hnp).1]
        exact hrp
    · unfold playTrackComplete
      rw [if_neg htok]
      exact hrp

/-- Witness for C27 amended: the saved position 30 of A is recorded, and kept
when B follows with a failed lookup. -/
theorem playTrack_resumePosition_witness :
    (playTrackComplete trackA [] (LookupResult.ok true 30)
      (init (some "tok"))).st.resumePosition = 30 ∧
    (playTrackComplete trackB [] LookupResult.error
      (playTrackComplete trackA [] (LookupResult.ok true 30)
        (init (some "tok")))).st.resumePosition =
      (playTrackComplete trackA [] (LookupResult.ok true 30)
        (init (some "tok"))).st.resumePosition :=
  ⟨(playTrack_resumePosition (init (some "tok")) trackA [] (LookupResult.ok true 30)).1 30
      (by decide) (by decide) rfl,
    (playTrack_resumePosition (playTrackComplete trackA [] (LookupResult.ok true 30)
      (init (some "tok"))) trackB [] LookupResult.error).2
      (Or.inr (fun p h => LookupResult.noConfusion h))⟩

/-- C28 (the code at the failing input): A plays, the listener seeks to 45 s,
then `playTrack(B)` completes with the lookup skipped (no token), failed, or
returning position 0: `currentTime` is still 45 in each case, whereas
`playNext()` in the same situation resets it to 0. -/
theorem playTrack_keeps_currentTime :
    (playTrackComplete trackB [] LookupResult.error
      (seek 45 (playTrack trackA [] (init none)))).st.currentTime = 45 ∧
    (playTrackComplete trackB [] LookupResult.error
      (seek 45 (playTrackComplete trackA [] LookupResult.error
        (init (some "tok"))))).st.currentTime = 45 ∧
    (playTrackComplete trackB [] (LookupResult.ok true 0)
      (seek 45 (playTrackComplete trackA [] LookupResult.error
        (init (some "tok"))))).st.currentTime = 45 ∧
    (playTrackComplete trackB [] LookupResult.error
      (seek 45 (playTrack trackA [] (init none)))).st.currentTrack = some trackB ∧
    (playNext (seek 45 (playTrack trackA [trackA, trackB] (init none)))).st.currentTime = 0 := by
  decide

/-! ## Navigation and the bounds of the index -/

/-- C29 (the code at the failing input): `playTrack(A, [A, B])` and then
`playTrack(A, [A, C])` with the same track object leave the index at 0, inside
the queue `[A, C]`; the `ended` listener still holds the first queue, so the
`ended` notification makes B current, which is neither the previous track A
nor `queue[currentIndex]`, which is C. -/
theorem ended_stale_listener_leaves_queue :
    0 ≤ (run (init none)
      [Event.playTrack trackA [trackA, trackB],
        Event.playTrack trackA [trackA, trackC]]).st.currentIndex ∧
    (run (init none)
      [Event.playTrack trackA [trackA, trackB],
        Event.playTrack trackA [trackA, trackC]]).st.currentIndex <
      ((run (init none)
        [Event.playTrack trackA [trackA, trackB],
          Event.playTrack trackA [trackA, trackC]]).st.queue.length : Int) ∧
    (run (init none)
      [Event.playTrack trackA [trackA, trackB],
        Event.playTrack trackA [trackA, trackC]]).st.currentTrack = some trackA ∧
    (ended (run (init none)
      [Event.playTrack trackA [trackA, trackB],
        Event.playTrack trackA [trackA, trackC]])).st.currentTrack = some trackB ∧
    getIdx (ended (run (init none)
      [Event.playTrack trackA [trackA, trackB],
        Event.playTrack trackA [trackA, trackC]])).st.queue
      (ended (run (init none)
        [Event.playTrack trackA [trackA, trackB],
          Event.playTrack trackA [trackA, trackC]])).st.currentIndex = some trackC := by
  decide

theorem playNextWith_keepsBounds (e e2 : Engine) (h0 : 0 ≤ e.st.currentIndex)
    (h1 : e.st.currentIndex < (e.st.queue.length : Int))
    (h2 : e2.st = playNextWith e.st.queue e.st) : KeepsBounds e e2 := by
  unfold KeepsBounds
  rw [h2]
  unfold playNextWith
  by_cases hc : e.st.currentIndex < (e.st.queue.length : Int) - 1
  · simp only [hc, if_true]
    obtain ⟨x, hx⟩ := getIdx_of_bounds e.st.queue (e.st.currentIndex + 1) (by omega) (by omega)
    exact ⟨by omega, by omega, Or.inr ⟨x, hx, hx⟩⟩
  · simp only [hc, if_false]
    exact ⟨h0, h1, Or.inl trivial⟩

theorem navigation_keeps_bounds (e : Engine) (h0 : 0 ≤ e.st.currentIndex)
    (h1 : e.st.currentIndex < (e.st.queue.length : Int)) :
    KeepsBounds e (playNext e) ∧ KeepsBounds e (playPrevious e) ∧
    (e.listenerQueue = e.st.queue → KeepsBounds e (ended e)) := by
  refine ⟨?_, ?_, ?_⟩
  · apply playNextWith_keepsBounds e _ h0 h1
    unfold playNext
    rw [commit_st]
    rfl
  · unfold KeepsBounds playPrevious
    rw [commit_st]
    unfold playPreviousHandler
    by_cases ht : e.st.currentTime > 3
    · simp only [ht, if_true]
      cases e.audio <;> exact ⟨h0, h1, Or.inl rfl⟩
    · simp only [ht, if_false]
      by_cases hc : e.st.currentIndex > 0
      · simp only [hc, if_true]
        obtain ⟨x, hx⟩ := getIdx_of_bounds e.st.queue (e.st.currentIndex - 1) (by omega)
          (by omega)
        exact ⟨by omega, by omega, Or.inr ⟨x, hx, hx⟩⟩
      · simp only [hc, if_false]
        exact ⟨h0, h1, Or.inl trivial⟩
  · intro hfresh
    cases ha : e.audio with
    | none =>
      have he : ended e = e := by
        unfold ended handleEnded
        rw [ha]
        exact commit_self e
      rw [he]
      exact ⟨h0, h1, Or.inl rfl⟩
    | some a =>
      by_cases hc : e.st.currentIndex < (e.st.queue.length : Int) - 1
      · apply playNextWith_keepsBounds e _ h0 h1
        rw [ended_st_of_audio e a ha, hfresh]
        simp only [hc, if_true]
      · unfold KeepsBounds
        rw [ended_st_of_audio e a ha]
        simp only [hc, if_false]
        exact ⟨h0, h1, Or.inl trivial⟩

/-! ## What the operations leave untouched -/

/-- C30: `togglePlayPause`, `playNext`, `playPrevious`, `seek`, `changeVolume`
and the three sink notifications (time-progressed, metadata-loaded, ended) each
leave `queue` as it is, and `playNext`, `playPrevious`, `seek` and
`changeVolume` leave `isPlaying` as it is. -/
theorem queue_and_playing_frame (e : Engine) (t d v : ℚ) :
    (togglePlayPause e).st.queue = e.st.queue ∧
    (playNext e).st.queue = e.st.queue ∧
    (playPrevious e).st.queue = e.st.queue ∧
    (seek t e).st.queue = e.st.queue ∧
    (changeVolume v e).st.queue = e.st.queue ∧
    (timeProgressed t e).st.queue = e.st.queue ∧
    (metadataLoaded d e).st.queue = e.st.queue ∧
    (ended e).st.queue = e.st.queue ∧
    (playNext e).st.isPlaying = e.st.isPlaying ∧
    (playPrevious e).st.isPlaying = e.st.isPlaying ∧
    (seek t e).st.isPlaying = e.st.isPlaying ∧
    (changeVolume v e).st.isPlaying = e.st.isPlaying := by
  have hnext : (playNext e).st.queue = e.st.queue ∧
      (playNext e).st.isPlaying = e.st.isPlaying := by
    unfold playNext
    rw [commit_st]
    unfold playNextHandler playNextWith
    by_cases hc : e.st.currentIndex < (e.st.queue.length : Int) - 1 <;> simp [hc]
  have hprev : (playPrevious e).st.queue = e.st.queue ∧
      (playPrevious e).st.isPlaying = e.st.isPlaying := by
    unfold playPrevious
    rw [commit_st]
    unfold playPreviousHandler
    by_cases ht : e.st.currentTime > 3
    · simp only [ht, if_true]
      cases e.audio <;> exact ⟨rfl, rfl⟩
    · by_cases hc : e.st.currentIndex > 0 <;> simp [ht, hc]
  have hseek : (seek t e).st.queue = e.st.queue ∧
      (seek t e).st.isPlaying = e.st.isPlaying := by
    unfold seek
    rw [commit_st]
    unfold seekHandler
    cases e.audio <;> exact ⟨rfl, rfl⟩
  have htime : (timeProgressed t e).st.queue = e.st.queue := by
    unfold timeProgressed
    rw [commit_st]
    unfold updateTime
    cases e.audio <;> rfl
  have hmeta : (metadataLoaded d e).st.queue = e.st.queue := by
    unfold metadataLoaded
    rw [commit_st]
    unfold updateDuration
    cases e.audio <;> rfl
  have hend : (ended e).st.queue = e.st.queue := by
    unfold ended
    rw [commit_st]
    unfold handleEnded
    cases e.audio with
    | none => rfl
    | some a =>
      by_cases hc : e.st.currentIndex < (e.st.queue.length : Int) - 1
      · simp only [hc, if_true]
        unfold playNextWith
        by_cases hc2 : e.st.currentIndex < (e.listenerQueue.length : Int) - 1 <;> simp [hc2]
      · simp only [hc, if_false]
        rw [savePlaybackPosition_st]
  have htoggle : (togglePlayPause e).st.queue = e.st.queue := by
    unfold togglePlayPause
    rw [commit_st]
    rfl
  have hvol : (changeVolume v e).st.queue = e.st.queue ∧
      (changeVolume v e).st.isPlaying = e.st.isPlaying := by
    unfold changeVolume
    rw [commit_st]
    exact ⟨rfl, rfl⟩
  exact ⟨htoggle, hnext.1, hprev.1, hseek.1, hvol.1, htime, hmeta, hend, hnext.2, hprev.2,
    hseek.2, hvol.2⟩

end PlayerContext
